import Mathlib

/-!
Phone-number forwarding (`phone_forward.c`).

A shallow embedding of the forwarding trie of `src/src/phone_forward.c` and of
its inversion index, followed by theorems about forward lookup (`phfwdGet`),
insertion (`phfwdAdd`), removal (`phfwdRemove`) and the two reverse queries
(`phfwdReverse`, `phfwdGetReverse`).

Conventions of the embedding

* A C string is a `List Char`: the bytes stored before the terminating NUL.
  Reading at the length of the list yields the terminator (`charAt`).
  A `char const *` argument of the interface is an `Option (List Char)`,
  `none` being the `NULL` pointer.
* A `PhoneForward *` is a value of the inductive type `PhoneForward`, whose
  constructor `null` is the `NULL` pointer.  The trie owns its children
  exclusively, so a functional tree describes the heap faithfully.
* `malloc` and `realloc` always succeed, so the branches taken only on
  allocation failure do not appear.  Capacities are not modelled: an array
  with its element count is a list.
* A `PhoneNumbers *` result is an `Option (List (List Char))`.
-/

namespace PhoneFwd

/-! ## Numbers -/

/-- The byte `num[i]` of a C string; past the stored bytes sits the NUL. -/
def charAt (num : List Char) (i : Nat) : Char := num.getD i (Char.ofNat 0)

/-- Source `numDigitIsCorrect`: `(c >= '0' && c <= '9') || c == '*' || c == '#'`. -/
def numDigitIsCorrect (c : Char) : Bool :=
  (decide ('0'.toNat ≤ c.toNat) && decide (c.toNat ≤ '9'.toNat)) || c == '*' || c == '#'

/-- Source `numDigitToIndex`: rank of a symbol, `-1` for any other byte. -/
def numDigitToIndex (c : Char) : Int :=
  if '0'.toNat ≤ c.toNat ∧ c.toNat ≤ '9'.toNat then (c.toNat : Int) - ('0'.toNat : Int)
  else if c = '*' then 10
  else if c = '#' then 11
  else -1

/-- Source `numlen`: the number of leading bytes that are symbols of the alphabet. -/
def numlen : List Char → Nat
  | [] => 0
  | c :: cs => if numDigitIsCorrect c then numlen cs + 1 else 0

/-- Source `numIsPrefix`: `num1` is not longer than `num2` and agrees with it on
its first `numlen num1` bytes. -/
def numIsPrefix (num1 num2 : List Char) : Bool :=
  if numlen num1 > numlen num2 then false
  else (List.range (numlen num1)).all (fun i => charAt num1 i == charAt num2 i)

/-- Source `numcpy`: the copy holds the first `numlen num2` bytes and a NUL. -/
def numcpy (num2 : List Char) : List Char := num2.take (numlen num2)

/-- Source `numcat`: bytes `0 .. len2` of `num2` (the byte at `len2` included,
which is the terminator when `num2` ends there) are written at offset
`numlen num1` of `num1`. -/
def numcat (num1 num2 : List Char) : List Char :=
  num1.take (numlen num1) ++ num2.take (numlen num2 + 1)

/-- The loop of `numcmp`, `k` iterations remaining, at index `i`. -/
def numcmpLoop (num1 num2 : List Char) (len1 len2 : Nat) : Nat → Nat → Int
  | 0, _ => if len1 < len2 then -1 else if len1 > len2 then 1 else 0
  | k + 1, i =>
    if numDigitToIndex (charAt num1 i) > numDigitToIndex (charAt num2 i) then 1
    else if numDigitToIndex (charAt num1 i) < numDigitToIndex (charAt num2 i) then -1
    else numcmpLoop num1 num2 len1 len2 k (i + 1)

/-- Source `numcmp`: compare ranks over the common length, then the lengths. -/
def numcmp (num1 num2 : List Char) : Int :=
  let len1 := numlen num1
  let len2 := numlen num2
  let len := if len2 < len1 then len2 else len1
  numcmpLoop num1 num2 len1 len2 len 0

/-- Source `numIsCorrect`: non-null, at least one symbol, and the byte after the
symbols is the terminator. -/
def numIsCorrect : Option (List Char) → Bool
  | none => false
  | some num =>
    if numlen num = 0 then false
    else if charAt num (numlen num) ≠ Char.ofNat 0 then false
    else true

/-- A well-formed C string stores no NUL byte before its terminator. -/
def IsCStr (s : List Char) : Prop := Char.ofNat 0 ∉ s

instance (s : List Char) : Decidable (IsCStr s) := by
  unfold IsCStr; infer_instance

/-- A valid number: a well-formed C string that `numIsCorrect` accepts. -/
def ValidNumber (s : List Char) : Prop := IsCStr s ∧ numIsCorrect (some s) = true

instance (s : List Char) : Decidable (ValidNumber s) := by
  unfold ValidNumber; infer_instance

/-! ## The structures -/

/-- Source `struct Inversion`. -/
structure Inversion where
  forward : List Char
  origin : List Char
deriving DecidableEq, Repr

/-- Source `struct PhoneForward` behind a pointer: `null` is `NULL`; a node has
its twelve child slots, its optional redirection and its array of inversions
(`inversion_amount` is the length of the list). -/
inductive PhoneForward where
  | null : PhoneForward
  | node (next : Fin 12 → PhoneForward) (redirection : Option (List Char))
      (inversions : List Inversion) : PhoneForward

/-- Source `struct PhoneNumbers`: the stored numbers, in order. -/
abbrev PhoneNumbers := List (List Char)

namespace PhoneForward

/-- The slot `pf->next[index]`; no slot is read through `NULL` or outside `0..11`
by the source, and the model answers `null` there. -/
def child : PhoneForward → Int → PhoneForward
  | null, _ => null
  | node next _ _, index =>
    if h : 0 ≤ index ∧ index < 12 then next ⟨index.toNat, by omega⟩ else null

/-- The field `pf->redirection` (`none` is `NULL`). -/
def redirection : PhoneForward → Option (List Char)
  | null => none
  | node _ r _ => r

/-- The array `pf->inversions[0 .. inversion_amount)`. -/
def inversions : PhoneForward → List Inversion
  | null => []
  | node _ _ invs => invs

/-- Whether the pointer is `NULL`. -/
def isNull : PhoneForward → Bool
  | null => true
  | node _ _ _ => false

/-- The assignment `pf->next[index] = c`. -/
def setChild : PhoneForward → Int → PhoneForward → PhoneForward
  | null, _, _ => null
  | node next r invs, index, c =>
    if h : 0 ≤ index ∧ index < 12 then
      node (Function.update next ⟨index.toNat, by omega⟩ c) r invs
    else node next r invs

end PhoneForward

open PhoneForward

/-- Source `phfwdNew`: no children, no redirection, no inversions. -/
def phfwdNew : PhoneForward := node (fun _ => null) none []

/-- Source `invrsNew`: copies of both strings, or `NULL` when one is not a number. -/
def invrsNew (num_forward num_origin : List Char) : Option Inversion :=
  if !numIsCorrect (some num_forward) || !numIsCorrect (some num_origin) then none
  else some ⟨numcpy num_forward, numcpy num_origin⟩

/-- The library routine `qsort` with comparator `cmp`, as an insertion sort.
The C standard leaves the relative order of elements that compare equal
unspecified; the sort is deterministic wherever such elements are identical. -/
def qsort {α : Type} (cmp : α → α → Int) (l : List α) : List α :=
  l.insertionSort (fun x y => cmp x y ≤ 0)

/-- Source `invrscmporg`: inversions are compared by their origin. -/
def invrscmporg (inv1 inv2 : Inversion) : Int := numcmp inv1.origin inv2.origin

/-! ## Container -/

/-- Source `phnumAdd`: `none` is the `false` result (the container is then
untouched), otherwise a copy of `num` is appended. -/
def phnumAdd (pnum : PhoneNumbers) (num : List Char) : Option PhoneNumbers :=
  if !numIsCorrect (some num) then none else some (pnum ++ [numcpy num])

/-- Source `phnumGet`: the `idx`-th number, `none` for a null container or an
index past the end. -/
def phnumGet (pnum : Option PhoneNumbers) (idx : Nat) : Option (List Char) :=
  match pnum with
  | none => none
  | some l => if idx ≥ l.length then none else l.get? idx

/-! ## Insertion -/

/-- The walk of `phfwdAdd` down the symbols of `num1`: a missing child is
created with `phfwdNew`, and `f` is what is done to the node the walk ends in. -/
def addWalk (f : PhoneForward → PhoneForward) : List Char → PhoneForward → PhoneForward
  | [], pf => f pf
  | c :: cs, pf =>
    let index := numDigitToIndex c
    let ch := if (pf.child index).isNull then phfwdNew else pf.child index
    pf.setChild index (addWalk f cs ch)

/-- What `phfwdAdd` does to the node of `num1`: the redirection becomes a copy of
`num2`, and the `qsort` call of the source, which is given this node's own
`inversions` and `inversion_amount`, sorts this node's array. -/
def setRedirection (num2 : List Char) : PhoneForward → PhoneForward
  | null => null
  | node next _ invs => node next (some (numcpy num2)) (qsort invrscmporg invs)

/-- The rollback `free(pf->redirection); pf->redirection = NULL` of `phfwdAdd`. -/
def clearRedirection : PhoneForward → PhoneForward
  | null => null
  | node next _ invs => node next none invs

/-- The store `pf_origin->inversions[pf_origin->inversion_amount] = inv` together
with `pf_origin->inversion_amount++`. -/
def pushInversion (inv : Inversion) : PhoneForward → PhoneForward
  | null => null
  | node next r invs => node next r (invs ++ [inv])

/-- Source `phfwdAdd`: the returned flag and the structure afterwards. -/
def phfwdAdd (pf : PhoneForward) (num1 num2 : Option (List Char)) : Bool × PhoneForward :=
  match num1, num2 with
  | some n1, some n2 =>
    if pf.isNull || !numIsCorrect num1 || !numIsCorrect num2 || numcmp n1 n2 == 0 then
      (false, pf)
    else
      match invrsNew n2 n1 with
      | none => (false, addWalk clearRedirection (n1.take (numlen n1)) pf)
      | some inv => (true, pushInversion inv (addWalk (setRedirection n2) (n1.take (numlen n1)) pf))
  | _, _ => (false, pf)

/-! ## Removal -/

/-- The binary search of `phfwdRemove` on `[l, r)`, at most `fuel` iterations:
each iteration shrinks `r - l`, so `inversion_amount` iterations are never
used up (`lowerBound_fuel`). -/
def lowerBound (num : List Char) (invs : List Inversion) : Nat → Nat → Nat → Nat
  | 0, l, _ => l
  | fuel + 1, l, r =>
    if l < r then
      let m := (l + r) / 2
      match invs.get? m with
      | none => l
      | some inv =>
        if numcmp num inv.origin > 0 then lowerBound num invs fuel (m + 1) r
        else lowerBound num invs fuel l m
    else l

/-- The scan and the compaction of `phfwdRemove`: from `first_index` on, the
run of records whose origin has `num` as a prefix is dropped. -/
def removeInversions (num : List Char) (invs : List Inversion) : List Inversion :=
  let first_index := lowerBound num invs invs.length 0 invs.length
  invs.take first_index ++
    (invs.drop first_index).dropWhile (fun inv => numIsPrefix num inv.origin)

/-- The walk of `phfwdRemove`: it stops at a missing child, and detaches the
child for the last symbol. -/
def removeWalk : List Char → PhoneForward → PhoneForward
  | [], pf => pf
  | [c], pf => pf.setChild (numDigitToIndex c) null
  | c :: cs, pf =>
    if (pf.child (numDigitToIndex c)).isNull then pf
    else pf.setChild (numDigitToIndex c) (removeWalk cs (pf.child (numDigitToIndex c)))

/-- Source `phfwdRemove`. -/
def phfwdRemove (pf : PhoneForward) (num : Option (List Char)) : PhoneForward :=
  match pf, num with
  | node next r invs, some n =>
    if !numIsCorrect (some n) then pf
    else removeWalk (n.take (numlen n)) (node next r (removeInversions n invs))
  | _, _ => pf

/-! ## Forward lookup -/

/-- The node reached from `pf` along `path`, `null` where the path leaves the trie. -/
def nodeAt (pf : PhoneForward) (path : List Char) : PhoneForward :=
  path.foldl (fun p c => p.child (numDigitToIndex c)) pf

/-- The redirection carried by the node for `path`, if that node exists. -/
def redirAt (pf : PhoneForward) (path : List Char) : Option (List Char) :=
  (nodeAt pf path).redirection

/-- The first loop of `phfwdGet`: `cs` are the symbols not yet read, `pf_it` the
current node, `num_it` its depth; the result is `deepest_found`. -/
def getDeepest : List Char → PhoneForward → Nat → Nat → Nat
  | [], pf_it, num_it, deepest_found =>
    if pf_it.redirection.isSome then num_it else deepest_found
  | c :: cs, pf_it, num_it, deepest_found =>
    let deepest := if pf_it.redirection.isSome then num_it else deepest_found
    if (pf_it.child (numDigitToIndex c)).isNull then deepest
    else getDeepest cs (pf_it.child (numDigitToIndex c)) (num_it + 1) deepest

/-- Source `phfwdGet`.  The second loop walks `deepest_found` symbols down again
(`nodeAt`); the node it ends in carries a redirection whenever
`deepest_found` is not zero. -/
def phfwdGet (pf : PhoneForward) (num : Option (List Char)) : Option PhoneNumbers :=
  match pf, num with
  | null, _ => none
  | node _ _ _, none => some []
  | node next r invs, some n =>
    if !numIsCorrect (some n) then some []
    else
      let deepest_found := getDeepest (n.take (numlen n)) (node next r invs) 0 0
      if deepest_found = 0 then some [numcpy n]
      else
        let pf_it := nodeAt (node next r invs) (n.take deepest_found)
        some [numcat (numcpy (pf_it.redirection.getD [])) (n.drop deepest_found)]

/-! ## Reverse queries -/

/-- The loop of `phfwdReverse` over the inversions: a record whose `forward` is a
prefix of `num` contributes its origin followed by the rest of `num`. -/
def reverseLoop (num : List Char) : List Inversion → PhoneNumbers → Option PhoneNumbers
  | [], pnum => some pnum
  | inv :: invs, pnum =>
    if numIsPrefix inv.forward num then
      match phnumAdd pnum (numcat (numcpy inv.origin) (num.drop (numlen inv.forward))) with
      | none => none
      | some pnum1 => reverseLoop num invs pnum1
    else reverseLoop num invs pnum

/-- The last loop of `phfwdReverse`: an entry is kept when it differs from the
entry before it (`prev`). -/
def dedupLoop : List (List Char) → List Char → PhoneNumbers → Option PhoneNumbers
  | [], _, res => some res
  | x :: xs, prev, res =>
    if numcmp x prev ≠ 0 then
      match phnumAdd res x with
      | none => none
      | some res1 => dedupLoop xs x res1
    else dedupLoop xs x res

/-- Source `phfwdReverse`. -/
def phfwdReverse (pf : PhoneForward) (num : Option (List Char)) : Option PhoneNumbers :=
  match pf, num with
  | null, _ => none
  | node _ _ _, none => some []
  | node _ _ invs, some n =>
    if !numIsCorrect (some n) then some []
    else
      match phnumAdd [] n with
      | none => none
      | some pnum0 =>
        match reverseLoop n invs pnum0 with
        | none => none
        | some pnum =>
          match qsort numcmp pnum with
          | [] => none
          | first :: rest =>
            match phnumAdd [] first with
            | none => none
            | some res => dedupLoop rest first res

/-- The loop of `phfwdGetReverse` over the candidates. -/
def getReverseLoop (pf : PhoneForward) (num : List Char) :
    List (List Char) → PhoneNumbers → Option PhoneNumbers
  | [], res => some res
  | x :: xs, res =>
    match phfwdGet pf (some x) with
    | none => none
    | some get =>
      match phnumGet (some get) 0 with
      | none => none
      | some get_res =>
        if numcmp get_res num = 0 then
          match phnumAdd res x with
          | none => none
          | some res1 => getReverseLoop pf num xs res1
        else getReverseLoop pf num xs res

/-- Source `phfwdGetReverse`. -/
def phfwdGetReverse (pf : PhoneForward) (num : Option (List Char)) : Option PhoneNumbers :=
  match pf, num with
  | null, _ => none
  | node _ _ _, none => some []
  | node next r invs, some n =>
    if !numIsCorrect (some n) then some []
    else
      match phfwdReverse (node next r invs) (some n) with
      | none => none
      | some pnum => getReverseLoop (node next r invs) n pnum []

/-! ## Histories -/

/-- A call of the mutating interface. -/
inductive Op where
  | add (num1 num2 : Option (List Char)) : Op
  | remove (num : Option (List Char)) : Op

/-- The structure after one call. -/
def applyOp (pf : PhoneForward) : Op → PhoneForward
  | Op.add num1 num2 => (phfwdAdd pf num1 num2).2
  | Op.remove num => phfwdRemove pf num

/-- The structure after a sequence of calls, oldest first. -/
def applyOps (pf : PhoneForward) (ops : List Op) : PhoneForward := ops.foldl applyOp pf

/-- The structures a caller can hold: `phfwdNew` followed by any calls of
`phfwdAdd` and `phfwdRemove`. -/
def Reachable (pf : PhoneForward) : Prop := ∃ ops : List Op, pf = applyOps phfwdNew ops

/-- The structure after a sequence of insertions of non-null strings, oldest first. -/
def applyAdds (pf : PhoneForward) (adds : List (List Char × List Char)) : PhoneForward :=
  adds.foldl (fun p a => (phfwdAdd p (some a.1) (some a.2)).2) pf

/-! ## Vocabulary of the statements -/

/-- Every byte of the string is a symbol of the alphabet. -/
def AllDigits (s : List Char) : Prop := ∀ c ∈ s, numDigitIsCorrect c = true

instance (s : List Char) : Decidable (AllDigits s) := by
  unfold AllDigits; infer_instance

/-- Lexicographic three-way comparison of rank sequences, a proper prefix first. -/
def lexCmp : List Int → List Int → Int
  | [], [] => 0
  | [], _ :: _ => -1
  | _ :: _, [] => 1
  | x :: xs, y :: ys => if x > y then 1 else if x < y then -1 else lexCmp xs ys

/-- The ranks of the stored symbols of a string. -/
def ranks (s : List Char) : List Int := (numcpy s).map numDigitToIndex

/-- The number order of the specification: lexicographic over the ranks
`0 < 1 < ... < 9 < * < #`, a proper prefix before its extensions. -/
def NumLt (a b : List Char) : Prop :=
  List.Lex (fun x y : Int => x < y) (a.map numDigitToIndex) (b.map numDigitToIndex)

/-- The candidates `phfwdReverse` derives from the index, in index order: for a
record whose `forward` is a prefix of `num`, its origin followed by the rest
of `num`. -/
def candidates (num : List Char) (invs : List Inversion) : List (List Char) :=
  (invs.filter (fun inv => numIsPrefix inv.forward num)).map
    (fun inv => inv.origin ++ num.drop inv.forward.length)

/-- What the last loop of `phfwdReverse` appends: the entries that differ from
their predecessor, `prev` being the predecessor of the first. -/
def dedupAdjacent : List Char → List (List Char) → List (List Char)
  | _, [] => []
  | prev, x :: xs =>
    if numcmp x prev ≠ 0 then x :: dedupAdjacent x xs else dedupAdjacent x xs

/-- The alphabet of the specification, in its order `0 < 1 < ... < 9 < * < #`. -/
def alphabet : List Char := "0123456789*#".toList

/-- The rank of a symbol by the words of the specification: its position in
the ordered alphabet. -/
def symbolRank (c : Char) : Nat := alphabet.indexOf c

/-- The comparison of the specification: lexicographic over the alphabet order,
a proper prefix before its extensions. -/
def SpecLt (a b : List Char) : Prop :=
  List.Lex (fun x y : Nat => x < y) (a.map symbolRank) (b.map symbolRank)

/-- The records are in non-decreasing order of their origin for `numcmp`. -/
def SortedByOrigin (invs : List Inversion) : Prop :=
  invs.Pairwise (fun r s => numcmp r.origin s.origin ≤ 0)

instance (invs : List Inversion) : Decidable (SortedByOrigin invs) := by
  unfold SortedByOrigin; infer_instance

/-- The invariant of the structures a caller can hold: the handle is not null,
the root carries no redirection, every redirection and every inversion record
is made of valid numbers, and every redirection in the trie has its record in
the handle's index. -/
structure WF (pf : PhoneForward) : Prop where
  nonnull : pf.isNull = false
  root : pf.redirection = none
  redir_valid : ∀ o t, redirAt pf o = some t → ValidNumber t
  inv_valid : ∀ inv ∈ pf.inversions, ValidNumber inv.forward ∧ ValidNumber inv.origin
  complete : ∀ o t, redirAt pf o = some t → (⟨t, o⟩ : Inversion) ∈ pf.inversions

/-! ## Facts about numbers -/

theorem char_eq_of_toNat_eq {c d : Char} (h : c.toNat = d.toNat) : c = d := by
  apply Char.ext
  apply UInt32.ext
  simpa [Char.toNat] using h

theorem numDigitToIndex_range {c : Char} (h : numDigitIsCorrect c = true) :
    0 ≤ numDigitToIndex c ∧ numDigitToIndex c < 12 := by
  unfold numDigitIsCorrect at h
  unfold numDigitToIndex
  have h0 : '0'.toNat = 48 := by decide
  have h9 : '9'.toNat = 57 := by decide
  simp only [Bool.or_eq_true, Bool.and_eq_true, decide_eq_true_eq, beq_iff_eq] at h
  split_ifs <;> first | omega | (exfalso; tauto)

theorem numDigitToIndex_neg {c : Char} (h : numDigitIsCorrect c = false) :
    numDigitToIndex c = -1 := by
  unfold numDigitIsCorrect at h
  unfold numDigitToIndex
  simp only [Bool.or_eq_false_iff, Bool.and_eq_false_iff, decide_eq_false_iff_not,
    beq_eq_false_iff_ne] at h
  split_ifs with h1 h2 h3
  · omega
  · exact absurd h2 h.1.2
  · exact absurd h3 h.2
  · rfl

theorem numDigitToIndex_inj {c d : Char} (hc : numDigitIsCorrect c = true)
    (h : numDigitToIndex c = numDigitToIndex d) : c = d := by
  have hd : numDigitIsCorrect d = true := by
    by_contra hd
    have := numDigitToIndex_neg (Bool.eq_false_iff.mpr hd)
    have := numDigitToIndex_range hc
    omega
  have hstar : '*'.toNat = 42 := by decide
  have hhash : '#'.toNat = 35 := by decide
  have h0 : '0'.toNat = 48 := by decide
  have h9 : '9'.toNat = 57 := by decide
  unfold numDigitToIndex at h
  split_ifs at h with a1 a2 a3 a4 a5 a6 a7 a8 a9 <;>
    first
      | omega
      | (apply char_eq_of_toNat_eq; omega)
      | (subst_vars; rfl)
      | (exfalso; unfold numDigitIsCorrect at hc hd; simp_all)

theorem numlen_le (s : List Char) : numlen s ≤ s.length := by
  induction s with
  | nil => simp [numlen]
  | cons c cs ih => simp only [numlen, List.length_cons]; split_ifs <;> omega

theorem numlen_eq_length {s : List Char} (h : AllDigits s) : numlen s = s.length := by
  induction s with
  | nil => simp [numlen]
  | cons c cs ih =>
    have hc : numDigitIsCorrect c = true := h c (List.mem_cons_self _ _)
    have hcs : AllDigits cs := fun d hd => h d (List.mem_cons_of_mem _ hd)
    simp [numlen, hc, ih hcs]

theorem allDigits_take_numlen (s : List Char) : AllDigits (s.take (numlen s)) := by
  induction s with
  | nil => intro c hc; simp [numlen] at hc
  | cons c cs ih =>
    intro d hd
    by_cases hc : numDigitIsCorrect c = true
    · simp only [numlen, hc, if_true, List.take_succ_cons, List.mem_cons] at hd
      rcases hd with rfl | hd
      · exact hc
      · exact ih d hd
    · simp [numlen, hc] at hd

theorem allDigits_numcpy (s : List Char) : AllDigits (numcpy s) := allDigits_take_numlen s

theorem numcpy_eq {s : List Char} (h : AllDigits s) : numcpy s = s := by
  unfold numcpy; rw [numlen_eq_length h]; exact List.take_length _

theorem numlen_numcpy (s : List Char) : numlen (numcpy s) = numlen s := by
  rw [numlen_eq_length (allDigits_numcpy s)]
  unfold numcpy
  rw [List.length_take]
  exact Nat.min_eq_left (numlen_le s)

theorem length_numcpy (s : List Char) : (numcpy s).length = numlen s := by
  rw [← numlen_eq_length (allDigits_numcpy s), numlen_numcpy]

theorem charAt_lt {s : List Char} {i : Nat} (h : i < s.length) : charAt s i = s[i] := by
  unfold charAt; exact List.getD_eq_getElem _ _ h

theorem charAt_numcpy {s : List Char} {i : Nat} (h : i < numlen s) :
    charAt (numcpy s) i = charAt s i := by
  have h1 : i < s.length := lt_of_lt_of_le h (numlen_le s)
  have h2 : i < (numcpy s).length := by rw [length_numcpy]; exact h
  rw [charAt_lt h1, charAt_lt h2]
  simp [numcpy, List.getElem_take]

theorem not_digit_nul : numDigitIsCorrect (Char.ofNat 0) = false := by decide

theorem allDigits_isCStr {s : List Char} (h : AllDigits s) : IsCStr s := by
  intro h0
  have := h _ h0
  rw [not_digit_nul] at this
  exact Bool.noConfusion this

/-- The validator on well-formed C strings: non-empty and made of symbols only. -/
theorem validNumber_iff {s : List Char} : ValidNumber s ↔ s ≠ [] ∧ AllDigits s := by
  constructor
  · rintro ⟨hc, hv⟩
    simp only [numIsCorrect, ne_eq, ite_not, Bool.if_false_left, Bool.if_true_right] at hv
    have h0 : numlen s ≠ 0 := by
      intro h; simp [h] at hv
    have h1 : charAt s (numlen s) = Char.ofNat 0 := by
      by_contra h; simp [h0, h] at hv
    have hlen : numlen s = s.length := by
      by_contra hne
      have hlt : numlen s < s.length := lt_of_le_of_ne (numlen_le s) hne
      rw [charAt_lt hlt] at h1
      exact hc (h1 ▸ List.getElem_mem _)
    refine ⟨?_, ?_⟩
    · rintro rfl; exact h0 rfl
    · have := allDigits_take_numlen s
      rwa [hlen, List.take_length] at this
  · rintro ⟨hne, hd⟩
    refine ⟨allDigits_isCStr hd, ?_⟩
    have hlen := numlen_eq_length hd
    have hpos : s.length ≠ 0 := by
      intro h; exact hne (List.length_eq_zero.mp h)
    simp [numIsCorrect, hlen, hpos, charAt]

theorem ValidNumber.allDigits {s : List Char} (h : ValidNumber s) : AllDigits s :=
  (validNumber_iff.mp h).2

theorem ValidNumber.ne_nil {s : List Char} (h : ValidNumber s) : s ≠ [] :=
  (validNumber_iff.mp h).1

theorem ValidNumber.correct {s : List Char} (h : ValidNumber s) :
    numIsCorrect (some s) = true := h.2

/-- What the validator accepts is stored as a valid number. -/
theorem validNumber_numcpy {s : List Char} (h : numIsCorrect (some s) = true) :
    ValidNumber (numcpy s) := by
  rw [validNumber_iff]
  refine ⟨?_, allDigits_numcpy s⟩
  intro hnil
  have hl : numlen s = 0 := by
    rw [← length_numcpy, hnil]; rfl
  simp [numIsCorrect, hl] at h

theorem allDigits_append {a b : List Char} (ha : AllDigits a) (hb : AllDigits b) :
    AllDigits (a ++ b) := by
  intro c hc
  rcases List.mem_append.mp hc with h | h
  · exact ha c h
  · exact hb c h

theorem allDigits_drop {a : List Char} (ha : AllDigits a) (k : Nat) : AllDigits (a.drop k) :=
  fun c hc => ha c (List.mem_of_mem_drop hc)

theorem allDigits_take {a : List Char} (ha : AllDigits a) (k : Nat) : AllDigits (a.take k) :=
  fun c hc => ha c (List.mem_of_mem_take hc)

theorem numcat_eq {a b : List Char} (ha : AllDigits a) (hb : AllDigits b) :
    numcat a b = a ++ b := by
  unfold numcat
  rw [numlen_eq_length ha, numlen_eq_length hb, List.take_length]
  congr 1
  exact List.take_of_length_le (Nat.le_succ _)

/-- The test `numIsPrefix` is the prefix relation between the stored symbols. -/
theorem numIsPrefix_iff (a b : List Char) :
    numIsPrefix a b = true ↔ numcpy a <+: numcpy b := by
  unfold numIsPrefix
  rw [List.prefix_iff_eq_take]
  constructor
  · intro h
    split_ifs at h with hgt
    rw [List.all_eq_true] at h
    have hle : numlen a ≤ numlen b := Nat.le_of_not_gt hgt
    apply List.ext_getElem
    · simp [length_numcpy, hle]
    · intro i h1 h2
      have hi : i < numlen a := by rwa [length_numcpy] at h1
      have := h i (List.mem_range.mpr hi)
      simp only [beq_iff_eq] at this
      rw [← charAt_numcpy hi, ← charAt_numcpy (lt_of_lt_of_le hi hle), charAt_lt h1,
        charAt_lt (by rw [length_numcpy]; omega)] at this
      simp [List.getElem_take, this]
  · intro h
    have hlen := congrArg List.length h
    simp only [List.length_take, length_numcpy] at hlen
    have hle : numlen a ≤ numlen b := by omega
    rw [if_neg (Nat.not_lt.mpr hle), List.all_eq_true]
    intro i hi
    have hi : i < numlen a := List.mem_range.mp hi
    simp only [beq_iff_eq]
    rw [← charAt_numcpy hi, ← charAt_numcpy (lt_of_lt_of_le hi hle)]
    have h1 : i < (numcpy a).length := by rw [length_numcpy]; exact hi
    have h2 : i < (numcpy b).length := by rw [length_numcpy]; omega
    rw [charAt_lt h1, charAt_lt h2]
    have h3 : i < (List.take (numcpy a).length (numcpy b)).length := by
      rw [List.length_take, length_numcpy, length_numcpy]; omega
    have : (numcpy a)[i] = (List.take (numcpy a).length (numcpy b))[i] := by
      congr 1
    rw [this, List.getElem_take]

theorem numIsPrefix_iff_of_digits {a b : List Char} (ha : AllDigits a) (hb : AllDigits b) :
    numIsPrefix a b = true ↔ a <+: b := by
  rw [numIsPrefix_iff, numcpy_eq ha, numcpy_eq hb]

theorem length_ranks (s : List Char) : (ranks s).length = numlen s := by
  simp [ranks, length_numcpy]

theorem ranks_getElem {s : List Char} {i : Nat} (h : i < numlen s)
    (h1 : i < (ranks s).length) : (ranks s)[i] = numDigitToIndex (charAt s i) := by
  have h2 : i < (numcpy s).length := by rw [length_numcpy]; exact h
  simp only [ranks, List.getElem_map]
  rw [← charAt_numcpy h, charAt_lt h2]

theorem numcmpLoop_eq (a b : List Char) (k i : Nat)
    (ha : i + k ≤ numlen a) (hb : i + k ≤ numlen b)
    (hk : i + k = numlen a ∨ i + k = numlen b) :
    numcmpLoop a b (numlen a) (numlen b) k i = lexCmp ((ranks a).drop i) ((ranks b).drop i) := by
  induction k generalizing i with
  | zero =>
    simp only [numcmpLoop]
    have hla := length_ranks a
    have hlb := length_ranks b
    rcases Nat.lt_trichotomy (numlen a) (numlen b) with hlt | heq | hgt
    · have h1 : (ranks a).drop i = [] := List.drop_eq_nil_of_le (by omega)
      have h2 : i < (ranks b).length := by omega
      rw [h1, List.drop_eq_getElem_cons h2, if_pos hlt]; rfl
    · have h1 : (ranks a).drop i = [] := List.drop_eq_nil_of_le (by omega)
      have h2 : (ranks b).drop i = [] := List.drop_eq_nil_of_le (by omega)
      rw [h1, h2, if_neg (by omega), if_neg (by omega)]; rfl
    · have h1 : (ranks b).drop i = [] := List.drop_eq_nil_of_le (by omega)
      have h2 : i < (ranks a).length := by omega
      rw [h1, List.drop_eq_getElem_cons h2, if_neg (by omega), if_pos hgt]; rfl
  | succ k ih =>
    have hia : i < numlen a := by omega
    have hib : i < numlen b := by omega
    have h1 : i < (ranks a).length := by rw [length_ranks]; exact hia
    have h2 : i < (ranks b).length := by rw [length_ranks]; exact hib
    rw [List.drop_eq_getElem_cons h1, List.drop_eq_getElem_cons h2]
    simp only [numcmpLoop, lexCmp, ranks_getElem hia h1, ranks_getElem hib h2]
    rw [ih (i + 1) (by omega) (by omega) (by omega)]

/-- The comparison `numcmp` is the lexicographic comparison of the ranks. -/
theorem numcmp_eq_lexCmp (a b : List Char) : numcmp a b = lexCmp (ranks a) (ranks b) := by
  unfold numcmp
  simp only
  split_ifs with h
  · have := numcmpLoop_eq a b (numlen b) 0 (by omega) (by omega) (by omega)
    simpa using this
  · have := numcmpLoop_eq a b (numlen a) 0 (by omega) (by omega) (by omega)
    simpa using this

theorem lexCmp_eq_zero {a b : List Int} : lexCmp a b = 0 ↔ a = b := by
  induction a generalizing b with
  | nil => cases b <;> simp [lexCmp]
  | cons x xs ih =>
    cases b with
    | nil => simp [lexCmp]
    | cons y ys =>
      simp only [lexCmp, List.cons.injEq]
      split_ifs with h1 h2
      · constructor
        · intro h; omega
        · rintro ⟨rfl, _⟩; omega
      · constructor
        · intro h; exact h.elim
        · rintro ⟨rfl, _⟩; omega
      · rw [ih]
        constructor
        · intro h; exact ⟨by omega, h⟩
        · exact fun h => h.2

theorem lexCmp_antisymm (a b : List Int) : lexCmp b a = -lexCmp a b := by
  induction a generalizing b with
  | nil => cases b <;> simp [lexCmp]
  | cons x xs ih =>
    cases b with
    | nil => simp [lexCmp]
    | cons y ys =>
      simp only [lexCmp]
      rw [ih ys]
      split_ifs <;> omega

theorem lexCmp_trans {a b c : List Int} (h1 : lexCmp a b ≤ 0) (h2 : lexCmp b c ≤ 0) :
    lexCmp a c ≤ 0 := by
  induction a generalizing b c with
  | nil => cases c <;> simp [lexCmp]
  | cons x xs ih =>
    cases b with
    | nil => simp [lexCmp] at h1
    | cons y ys =>
      cases c with
      | nil => simp [lexCmp] at h2
      | cons z zs =>
        simp only [lexCmp] at h1 h2 ⊢
        split_ifs at h1 h2 ⊢ <;> first | omega | exact ih h1 h2

theorem ranks_inj {a b : List Char} (ha : AllDigits a) (hb : AllDigits b)
    (h : ranks a = ranks b) : a = b := by
  unfold ranks at h
  rw [numcpy_eq ha, numcpy_eq hb] at h
  induction a generalizing b with
  | nil => cases b <;> simp_all
  | cons x xs ih =>
    cases b with
    | nil => simp at h
    | cons y ys =>
      simp only [List.map_cons, List.cons.injEq] at h
      have hx : numDigitIsCorrect x = true := ha x (List.mem_cons_self _ _)
      rw [numDigitToIndex_inj hx h.1]
      congr 1
      exact ih (fun d hd => ha d (List.mem_cons_of_mem _ hd))
        (fun d hd => hb d (List.mem_cons_of_mem _ hd)) h.2

theorem numcmp_eq_zero {a b : List Char} (ha : AllDigits a) (hb : AllDigits b) :
    numcmp a b = 0 ↔ a = b := by
  rw [numcmp_eq_lexCmp, lexCmp_eq_zero]
  exact ⟨ranks_inj ha hb, fun h => h ▸ rfl⟩

theorem numcmp_eq_zero_numcpy (a b : List Char) :
    numcmp a b = 0 ↔ numcpy a = numcpy b := by
  rw [numcmp_eq_lexCmp, lexCmp_eq_zero]
  constructor
  · intro h
    apply ranks_inj (allDigits_numcpy a) (allDigits_numcpy b)
    unfold ranks at h ⊢
    rw [numcpy_eq (allDigits_numcpy a), numcpy_eq (allDigits_numcpy b)]
    exact h
  · intro h; unfold ranks; rw [h]

theorem numcmp_antisymm (a b : List Char) : numcmp b a = -numcmp a b := by
  rw [numcmp_eq_lexCmp, numcmp_eq_lexCmp, lexCmp_antisymm]

theorem numcmp_trans {a b c : List Char} (h1 : numcmp a b ≤ 0) (h2 : numcmp b c ≤ 0) :
    numcmp a c ≤ 0 := by
  rw [numcmp_eq_lexCmp] at *
  exact lexCmp_trans h1 h2

theorem numcmp_lt_of_le_of_lt {a b c : List Char} (h1 : numcmp a b ≤ 0) (h2 : numcmp b c < 0) :
    numcmp a c < 0 := by
  by_contra h
  have h3 : numcmp c a ≤ 0 := by rw [numcmp_antisymm a c]; omega
  have h4 := numcmp_trans h3 h1
  rw [numcmp_antisymm b c] at h4
  omega

/-! ## Facts about the trie -/

theorem nodeAt_nil (pf : PhoneForward) : nodeAt pf [] = pf := rfl

theorem nodeAt_cons (pf : PhoneForward) (c : Char) (cs : List Char) :
    nodeAt pf (c :: cs) = nodeAt (pf.child (numDigitToIndex c)) cs := rfl

theorem nodeAt_null (path : List Char) : nodeAt null path = null := by
  induction path with
  | nil => rfl
  | cons c cs ih => rw [nodeAt_cons]; exact ih

theorem nodeAt_append (pf : PhoneForward) (a b : List Char) :
    nodeAt pf (a ++ b) = nodeAt (nodeAt pf a) b := by
  unfold nodeAt; exact List.foldl_append _ _ _ _

theorem redirAt_null (path : List Char) : redirAt null path = none := by
  unfold redirAt; rw [nodeAt_null]; rfl

theorem eq_null_of_isNull {pf : PhoneForward} (h : pf.isNull = true) : pf = null := by
  cases pf with
  | null => rfl
  | node _ _ _ => simp [isNull] at h

theorem child_setChild_same {pf : PhoneForward} (hpf : pf.isNull = false) {i : Int}
    (hi : 0 ≤ i ∧ i < 12) (v : PhoneForward) : (pf.setChild i v).child i = v := by
  cases pf with
  | null => simp [isNull] at hpf
  | node next r invs => simp [setChild, child, hi]

theorem child_setChild_ne (pf : PhoneForward) {i j : Int} (h : i ≠ j) (v : PhoneForward) :
    (pf.setChild i v).child j = pf.child j := by
  cases pf with
  | null => rfl
  | node next r invs =>
    by_cases hi : 0 ≤ i ∧ i < 12
    · by_cases hj : 0 ≤ j ∧ j < 12
      · simp only [setChild, child, hi, hj, and_self, dite_true]
        apply Function.update_noteq
        intro heq
        have := congrArg Fin.val heq
        simp only at this
        omega
      · simp [setChild, child, hi, hj]
    · simp [setChild, child, hi]

theorem redirection_setChild (pf : PhoneForward) (i : Int) (v : PhoneForward) :
    (pf.setChild i v).redirection = pf.redirection := by
  cases pf with
  | null => rfl
  | node next r invs => simp only [setChild]; split_ifs <;> rfl

theorem inversions_setChild (pf : PhoneForward) (i : Int) (v : PhoneForward) :
    (pf.setChild i v).inversions = pf.inversions := by
  cases pf with
  | null => rfl
  | node next r invs => simp only [setChild]; split_ifs <;> rfl

theorem isNull_setChild (pf : PhoneForward) (i : Int) (v : PhoneForward) :
    (pf.setChild i v).isNull = pf.isNull := by
  cases pf with
  | null => rfl
  | node next r invs => simp only [setChild]; split_ifs <;> rfl

theorem child_setRedirection (num2 : List Char) (pf : PhoneForward) (i : Int) :
    (setRedirection num2 pf).child i = pf.child i := by
  cases pf <;> rfl

theorem redirAt_phfwdNew (path : List Char) : redirAt phfwdNew path = none := by
  cases path with
  | nil => rfl
  | cons c cs =>
    unfold redirAt
    rw [nodeAt_cons]
    have : phfwdNew.child (numDigitToIndex c) = null := by
      simp only [phfwdNew, child]; split_ifs <;> rfl
    rw [this, nodeAt_null]; rfl

theorem isNull_addWalk (f : PhoneForward → PhoneForward) (x : List Char) (hx : x ≠ [])
    (pf : PhoneForward) : (addWalk f x pf).isNull = pf.isNull := by
  cases x with
  | nil => exact absurd rfl hx
  | cons c cs => simp only [addWalk]; exact isNull_setChild _ _ _

theorem inversions_addWalk (f : PhoneForward → PhoneForward) (x : List Char) (hx : x ≠ [])
    (pf : PhoneForward) : (addWalk f x pf).inversions = pf.inversions := by
  cases x with
  | nil => exact absurd rfl hx
  | cons c cs => simp only [addWalk]; exact inversions_setChild _ _ _

/-- The redirections after the walk of `phfwdAdd`: the node of `x` carries the
copy of `num2`, every other path carries what it carried. -/
theorem redirAt_addWalk (num2 : List Char) (x : List Char) (hx : AllDigits x)
    (pf : PhoneForward) (hpf : pf.isNull = false) (o : List Char) :
    redirAt (addWalk (setRedirection num2) x pf) o
      = if o = x then some (numcpy num2) else redirAt pf o := by
  induction x generalizing pf o with
  | nil =>
    simp only [addWalk]
    cases pf with
    | null => simp [isNull] at hpf
    | node next r invs =>
      cases o with
      | nil => simp [redirAt, nodeAt_nil, setRedirection, redirection]
      | cons d o1 =>
        simp only [redirAt, nodeAt_cons, child_setRedirection]
        simp
  | cons c cs ih =>
    have hc : numDigitIsCorrect c = true := hx c (List.mem_cons_self _ _)
    have hcs : AllDigits cs := fun d hd => hx d (List.mem_cons_of_mem _ hd)
    have hr := numDigitToIndex_range hc
    simp only [addWalk]
    cases o with
    | nil =>
      simp only [redirAt, nodeAt_nil, redirection_setChild]
      simp
    | cons d o1 =>
      by_cases hdc : numDigitToIndex c = numDigitToIndex d
      · have hcd : c = d := numDigitToIndex_inj hc hdc
        subst hcd
        have hstep : redirAt (pf.setChild (numDigitToIndex c)
            (addWalk (setRedirection num2) cs
              (if (pf.child (numDigitToIndex c)).isNull then phfwdNew
                else pf.child (numDigitToIndex c)))) (c :: o1)
            = redirAt (addWalk (setRedirection num2) cs
              (if (pf.child (numDigitToIndex c)).isNull then phfwdNew
                else pf.child (numDigitToIndex c))) o1 := by
          simp only [redirAt, nodeAt_cons, child_setChild_same hpf hr]
        rw [hstep]
        by_cases hn : (pf.child (numDigitToIndex c)).isNull = true
        · rw [if_pos hn, ih hcs phfwdNew rfl o1]
          have : redirAt pf (c :: o1) = none := by
            simp only [redirAt, nodeAt_cons, eq_null_of_isNull hn, nodeAt_null]; rfl
          rw [this, redirAt_phfwdNew]
          simp
        · rw [if_neg hn, ih hcs _ (by simpa using hn) o1]
          simp only [redirAt, nodeAt_cons, List.cons.injEq, true_and]
      · have hne : d :: o1 ≠ c :: cs := by
          intro h; injection h with h1 h2; exact hdc (h1 ▸ rfl)
        rw [if_neg hne]
        simp only [redirAt, nodeAt_cons, child_setChild_ne pf hdc]

/-- The redirections after the walk of `phfwdRemove`: nothing is left at or
below `p`, every other path carries what it carried. -/
theorem redirAt_removeWalk (p : List Char) (hp : AllDigits p) (hne : p ≠ [])
    (pf : PhoneForward) (hpf : pf.isNull = false) (o : List Char) :
    redirAt (removeWalk p pf) o = if p <+: o then none else redirAt pf o := by
  induction p generalizing pf o with
  | nil => exact absurd rfl hne
  | cons c cs ih =>
    have hc : numDigitIsCorrect c = true := hp c (List.mem_cons_self _ _)
    have hcs : AllDigits cs := fun d hd => hp d (List.mem_cons_of_mem _ hd)
    have hr := numDigitToIndex_range hc
    cases o with
    | nil =>
      have hnp : ¬ (c :: cs <+: ([] : List Char)) := by simp
      rw [if_neg hnp]
      cases cs with
      | nil => simp only [removeWalk, redirAt, nodeAt_nil, redirection_setChild]
      | cons c2 cs2 =>
        simp only [removeWalk]
        split_ifs
        · rfl
        · simp only [redirAt, nodeAt_nil, redirection_setChild]
    | cons d o1 =>
      by_cases hdc : numDigitToIndex c = numDigitToIndex d
      · have hcd : c = d := numDigitToIndex_inj hc hdc
        subst hcd
        cases cs with
        | nil =>
          simp only [removeWalk, redirAt, nodeAt_cons, child_setChild_same hpf hr, nodeAt_null]
          simp [List.prefix_cons_inj, redirection]
        | cons c2 cs2 =>
          simp only [removeWalk]
          by_cases hn : (pf.child (numDigitToIndex c)).isNull = true
          · rw [if_pos hn]
            have : redirAt pf (c :: o1) = none := by
              simp only [redirAt, nodeAt_cons, eq_null_of_isNull hn, nodeAt_null]; rfl
            rw [this]; simp
          · rw [if_neg hn]
            have hstep : redirAt (pf.setChild (numDigitToIndex c)
                (removeWalk (c2 :: cs2) (pf.child (numDigitToIndex c)))) (c :: o1)
                = redirAt (removeWalk (c2 :: cs2) (pf.child (numDigitToIndex c))) o1 := by
              simp only [redirAt, nodeAt_cons, child_setChild_same hpf hr]
            rw [hstep, ih hcs (by simp) _ (by simpa using hn) o1]
            simp only [List.prefix_cons_inj]
            rfl
      · have hnp : ¬ (c :: cs <+: d :: o1) := by
          intro h
          rw [List.cons_prefix_cons] at h
          exact hdc (h.1 ▸ rfl)
        rw [if_neg hnp]
        cases cs with
        | nil => simp only [removeWalk, redirAt, nodeAt_cons, child_setChild_ne pf hdc]
        | cons c2 cs2 =>
          simp only [removeWalk]
          split_ifs
          · rfl
          · simp only [redirAt, nodeAt_cons, child_setChild_ne pf hdc]

/-! ## Forward lookup: the deepest redirected node -/

theorem redirAt_cons_of_null {pf : PhoneForward} {c : Char}
    (h : (pf.child (numDigitToIndex c)).isNull = true) (cs : List Char) :
    redirAt pf (c :: cs) = none := by
  simp only [redirAt, nodeAt_cons, eq_null_of_isNull h, nodeAt_null]; rfl

/-- The first loop of `phfwdGet` returns the depth of the deepest node of the
path that carries a redirection, or leaves `deepest_found` alone when no node
of the path carries one. -/
theorem getDeepest_spec (cs : List Char) (pf_it : PhoneForward) (num_it d0 : Nat) :
    ((∀ j, j ≤ cs.length → redirAt pf_it (cs.take j) = none) ∧
        getDeepest cs pf_it num_it d0 = d0) ∨
    ∃ j t, j ≤ cs.length ∧ redirAt pf_it (cs.take j) = some t ∧
      (∀ i, j < i → i ≤ cs.length → redirAt pf_it (cs.take i) = none) ∧
      getDeepest cs pf_it num_it d0 = num_it + j := by
  induction cs generalizing pf_it num_it d0 with
  | nil =>
    simp only [getDeepest]
    cases hr : pf_it.redirection with
    | none =>
      left
      refine ⟨?_, by simp⟩
      intro j _
      simp [redirAt, nodeAt_nil, hr]
    | some t =>
      right
      refine ⟨0, t, le_refl _, ?_, ?_, by simp⟩
      · simp [redirAt, nodeAt_nil, hr]
      · intro i h1 h2; simp at h2; omega
  | cons c cs ih =>
    simp only [getDeepest]
    have hdeep :
        (∀ j, j ≤ cs.length → redirAt (pf_it.child (numDigitToIndex c)) (cs.take j) = none) →
        ∀ i, 0 < i → i ≤ (c :: cs).length → redirAt pf_it ((c :: cs).take i) = none := by
      intro hall i hi hle
      obtain ⟨i1, rfl⟩ : ∃ i1, i = i1 + 1 := ⟨i - 1, by omega⟩
      simp only [List.take_succ_cons, redirAt, nodeAt_cons]
      exact hall i1 (by simpa using hle)
    by_cases hn : (pf_it.child (numDigitToIndex c)).isNull = true
    · rw [if_pos hn]
      have hbelow : ∀ i, 0 < i → i ≤ (c :: cs).length →
          redirAt pf_it ((c :: cs).take i) = none := by
        intro i hi _
        obtain ⟨i1, rfl⟩ : ∃ i1, i = i1 + 1 := ⟨i - 1, by omega⟩
        simp only [List.take_succ_cons]
        exact redirAt_cons_of_null hn _
      cases hr : pf_it.redirection with
      | none =>
        left
        refine ⟨?_, by simp⟩
        intro j hj
        rcases Nat.eq_zero_or_pos j with rfl | hpos
        · simp [redirAt, nodeAt_nil, hr]
        · exact hbelow j hpos hj
      | some t =>
        right
        refine ⟨0, t, Nat.zero_le _, ?_, ?_, by simp⟩
        · simp [redirAt, nodeAt_nil, hr]
        · intro i h1 h2; exact hbelow i h1 h2
    · rw [if_neg hn]
      rcases ih (pf_it.child (numDigitToIndex c)) (num_it + 1)
          (if pf_it.redirection.isSome = true then num_it else d0) with ⟨hall, hres⟩ | ⟨j, t, hj, hjt, hjmax, hres⟩
      · have hbelow := hdeep hall
        cases hr : pf_it.redirection with
        | none =>
          left
          refine ⟨?_, by rw [hr] at hres; simpa using hres⟩
          intro j hj
          rcases Nat.eq_zero_or_pos j with rfl | hpos
          · simp [redirAt, nodeAt_nil, hr]
          · exact hbelow j hpos hj
        | some t =>
          right
          refine ⟨0, t, Nat.zero_le _, ?_, ?_, by rw [hr] at hres; simpa using hres⟩
          · simp [redirAt, nodeAt_nil, hr]
          · intro i h1 h2; exact hbelow i h1 h2
      · right
        refine ⟨j + 1, t, by simpa using hj, ?_, ?_, by rw [hres]; omega⟩
        · simpa only [List.take_succ_cons, redirAt, nodeAt_cons] using hjt
        · intro i h1 h2
          obtain ⟨i1, rfl⟩ : ∃ i1, i = i1 + 1 := ⟨i - 1, by omega⟩
          simp only [List.take_succ_cons, redirAt, nodeAt_cons]
          exact hjmax i1 (by omega) (by simpa using h2)

/-- Forward lookup on a valid number, in the two cases of the source: nothing on
the path redirects, or the deepest redirected prefix is rewritten. -/
theorem phfwdGet_cases {pf : PhoneForward} (hpf : WF pf) {n : List Char} (hn : ValidNumber n) :
    ((∀ k, k ≤ n.length → redirAt pf (n.take k) = none) ∧ phfwdGet pf (some n) = some [n]) ∨
    ∃ k t, 0 < k ∧ k ≤ n.length ∧ redirAt pf (n.take k) = some t ∧
      (∀ i, k < i → i ≤ n.length → redirAt pf (n.take i) = none) ∧
      phfwdGet pf (some n) = some [t ++ n.drop k] := by
  have hd := hn.allDigits
  have hlen := numlen_eq_length hd
  have hroot := hpf.root
  cases pf with
  | null => exact absurd hpf.nonnull (by simp [isNull])
  | node next r invs =>
    simp only [phfwdGet, hn.correct, Bool.not_true, Bool.false_eq_true, if_false, hlen,
      List.take_length]
    rcases getDeepest_spec n (node next r invs) 0 0 with ⟨hall, hres⟩ | ⟨j, t, hj, hjt, hjmax, hres⟩
    · left
      refine ⟨hall, ?_⟩
      rw [hres, if_pos rfl, numcpy_eq hd]
    · right
      have hj0 : j ≠ 0 := by
        rintro rfl
        simp only [List.take_zero, redirAt, nodeAt_nil] at hjt
        rw [hroot] at hjt
        exact Option.noConfusion hjt
      refine ⟨j, t, Nat.pos_of_ne_zero hj0, hj, hjt, hjmax, ?_⟩
      rw [hres, Nat.zero_add, if_neg hj0]
      have ht : (nodeAt (node next r invs) (List.take j n)).redirection = some t := hjt
      have htv := (hpf.redir_valid _ _ hjt).allDigits
      rw [ht, Option.getD_some, numcpy_eq htv, numcat_eq htv (allDigits_drop hd j)]

/-! ## The effect of the mutating calls -/

theorem redirAt_node_inversions (next : Fin 12 → PhoneForward) (r : Option (List Char))
    (invs1 invs2 : List Inversion) (o : List Char) :
    redirAt (node next r invs1) o = redirAt (node next r invs2) o := by
  cases o with
  | nil => rfl
  | cons c cs => simp only [redirAt, nodeAt_cons, child]

theorem redirAt_pushInversion (inv : Inversion) (pf : PhoneForward) (o : List Char) :
    redirAt (pushInversion inv pf) o = redirAt pf o := by
  cases pf with
  | null => rfl
  | node next r invs => exact redirAt_node_inversions _ _ _ _ _

theorem inversions_pushInversion (inv : Inversion) {pf : PhoneForward}
    (h : pf.isNull = false) : (pushInversion inv pf).inversions = pf.inversions ++ [inv] := by
  cases pf with
  | null => simp [isNull] at h
  | node next r invs => rfl

theorem isNull_pushInversion (inv : Inversion) (pf : PhoneForward) :
    (pushInversion inv pf).isNull = pf.isNull := by
  cases pf <;> rfl

theorem numcpy_ne_nil {n : List Char} (h : numIsCorrect (some n) = true) : numcpy n ≠ [] :=
  (validNumber_numcpy h).ne_nil

/-- A call of `phfwdAdd` that passes the guard of the source: the flag is `true`,
one record is appended, the node of `num1` is redirected to `num2`. -/
theorem phfwdAdd_ok {pf : PhoneForward} (hpf : pf.isNull = false) {n1 n2 : List Char}
    (h1 : numIsCorrect (some n1) = true) (h2 : numIsCorrect (some n2) = true)
    (hne : numcmp n1 n2 ≠ 0) :
    phfwdAdd pf (some n1) (some n2)
      = (true, pushInversion ⟨numcpy n2, numcpy n1⟩
          (addWalk (setRedirection n2) (numcpy n1) pf)) := by
  simp [phfwdAdd, hpf, h1, h2, hne, invrsNew, numcpy]

/-- A call of `phfwdAdd` that the guard of the source rejects changes nothing. -/
theorem phfwdAdd_rejected (pf : PhoneForward) (num1 num2 : Option (List Char))
    (h : (phfwdAdd pf num1 num2).1 = false) : (phfwdAdd pf num1 num2).2 = pf := by
  cases num1 with
  | none => rfl
  | some n1 =>
    cases num2 with
    | none => rfl
    | some n2 =>
      by_cases hg : (pf.isNull || !numIsCorrect (some n1) || !numIsCorrect (some n2)
          || numcmp n1 n2 == 0) = true
      · simp only [phfwdAdd, hg, if_true]
      · exfalso
        simp only [Bool.or_eq_true, Bool.not_eq_true', beq_iff_eq, not_or,
          Bool.not_eq_false, Bool.not_eq_true] at hg
        obtain ⟨⟨⟨g1, g2⟩, g3⟩, g4⟩ := hg
        rw [phfwdAdd_ok g1 g2 g3 g4] at h
        exact Bool.noConfusion h

theorem redirAt_phfwdAdd_ok {pf : PhoneForward} (hpf : pf.isNull = false) {n1 n2 : List Char}
    (h1 : numIsCorrect (some n1) = true) (h2 : numIsCorrect (some n2) = true)
    (hne : numcmp n1 n2 ≠ 0) (o : List Char) :
    redirAt (phfwdAdd pf (some n1) (some n2)).2 o
      = if o = numcpy n1 then some (numcpy n2) else redirAt pf o := by
  rw [phfwdAdd_ok hpf h1 h2 hne]
  simp only
  rw [redirAt_pushInversion, redirAt_addWalk _ _ (allDigits_numcpy n1) _ hpf]

theorem inversions_phfwdAdd_ok {pf : PhoneForward} (hpf : pf.isNull = false)
    {n1 n2 : List Char}
    (h1 : numIsCorrect (some n1) = true) (h2 : numIsCorrect (some n2) = true)
    (hne : numcmp n1 n2 ≠ 0) :
    (phfwdAdd pf (some n1) (some n2)).2.inversions
      = pf.inversions ++ [⟨numcpy n2, numcpy n1⟩] := by
  rw [phfwdAdd_ok hpf h1 h2 hne]
  simp only
  rw [inversions_pushInversion, inversions_addWalk _ _ (numcpy_ne_nil h1)]
  rw [isNull_addWalk _ _ (numcpy_ne_nil h1)]; exact hpf

theorem isNull_phfwdAdd (pf : PhoneForward) (num1 num2 : Option (List Char)) :
    (phfwdAdd pf num1 num2).2.isNull = pf.isNull := by
  cases hflag : (phfwdAdd pf num1 num2).1 with
  | false => rw [phfwdAdd_rejected _ _ _ hflag]
  | true =>
    cases num1 with
    | none => simp [phfwdAdd] at hflag
    | some n1 =>
      cases num2 with
      | none => simp [phfwdAdd] at hflag
      | some n2 =>
        by_cases hg : (pf.isNull || !numIsCorrect (some n1) || !numIsCorrect (some n2)
            || numcmp n1 n2 == 0) = true
        · simp [phfwdAdd, hg] at hflag
        · simp only [Bool.or_eq_true, Bool.not_eq_true', beq_iff_eq, not_or,
            Bool.not_eq_false, Bool.not_eq_true] at hg
          obtain ⟨⟨⟨g1, g2⟩, g3⟩, g4⟩ := hg
          rw [phfwdAdd_ok g1 g2 g3 g4]
          simp only
          rw [isNull_pushInversion, isNull_addWalk _ _ (numcpy_ne_nil g2)]

theorem mem_dropWhile_of_false {α : Type} (p : α → Bool) {l : List α} {x : α}
    (hx : x ∈ l) (hp : p x = false) : x ∈ l.dropWhile p := by
  induction l with
  | nil => exact absurd hx (List.not_mem_nil _)
  | cons a l ih =>
    rw [List.dropWhile_cons]
    split_ifs with ha
    · rcases List.mem_cons.mp hx with rfl | h
      · rw [hp] at ha; exact Bool.noConfusion ha
      · exact ih h
    · exact hx

/-- The binary search never runs out of iterations: any two budgets of at least
`r - l` iterations give the same index. -/
theorem lowerBound_fuel_indep (num : List Char) (invs : List Inversion) (f1 f2 l r : Nat)
    (h1 : r - l ≤ f1) (h2 : r - l ≤ f2) :
    lowerBound num invs f1 l r = lowerBound num invs f2 l r := by
  induction f1 generalizing f2 l r with
  | zero =>
    cases f2 with
    | zero => rfl
    | succ f2 =>
      simp only [lowerBound]
      rw [if_neg (by omega)]
  | succ f1 ih =>
    cases f2 with
    | zero =>
      simp only [lowerBound]
      rw [if_neg (by omega)]
    | succ f2 =>
      simp only [lowerBound]
      by_cases hlr : l < r
      · rw [if_pos hlr, if_pos hlr]
        have hm1 : l ≤ (l + r) / 2 := by omega
        have hm2 : (l + r) / 2 < r := by omega
        cases invs.get? ((l + r) / 2) with
        | none => rfl
        | some inv =>
          simp only
          split_ifs
          · exact ih f2 _ _ (by omega) (by omega)
          · exact ih f2 _ _ (by omega) (by omega)
      · rw [if_neg hlr, if_neg hlr]

/-- The budget `inversion_amount` given to the binary search is enough. -/
theorem lowerBound_fuel (num : List Char) (invs : List Inversion) (fuel : Nat)
    (h : invs.length ≤ fuel) :
    lowerBound num invs fuel 0 invs.length
      = lowerBound num invs invs.length 0 invs.length :=
  lowerBound_fuel_indep num invs _ _ _ _ (by omega) (by omega)

/-- The removal from the index keeps every record whose origin does not have
`num` as a prefix. -/
theorem mem_removeInversions {num : List Char} {invs : List Inversion} {inv : Inversion}
    (hx : inv ∈ invs) (hp : numIsPrefix num inv.origin = false) :
    inv ∈ removeInversions num invs := by
  unfold removeInversions
  simp only
  rw [← List.take_append_drop (lowerBound num invs invs.length 0 invs.length) invs] at hx
  rcases List.mem_append.mp hx with h | h
  · exact List.mem_append_left _ h
  · exact List.mem_append_right _
      (mem_dropWhile_of_false (fun inv => numIsPrefix num inv.origin) h hp)

/-- The removal from the index adds no record. -/
theorem removeInversions_subset {num : List Char} {invs : List Inversion} {inv : Inversion}
    (hx : inv ∈ removeInversions num invs) : inv ∈ invs := by
  unfold removeInversions at hx
  simp only at hx
  rcases List.mem_append.mp hx with h | h
  · exact List.mem_of_mem_take h
  · exact List.mem_of_mem_drop ((List.dropWhile_sublist _).subset h)

theorem isNull_removeWalk (p : List Char) (pf : PhoneForward) :
    (removeWalk p pf).isNull = pf.isNull := by
  cases p with
  | nil => rfl
  | cons c cs =>
    cases cs with
    | nil => simp only [removeWalk]; exact isNull_setChild _ _ _
    | cons c2 cs2 =>
      simp only [removeWalk]
      split_ifs
      · rfl
      · exact isNull_setChild _ _ _

theorem inversions_removeWalk (p : List Char) (pf : PhoneForward) :
    (removeWalk p pf).inversions = pf.inversions := by
  cases p with
  | nil => rfl
  | cons c cs =>
    cases cs with
    | nil => simp only [removeWalk]; exact inversions_setChild _ _ _
    | cons c2 cs2 =>
      simp only [removeWalk]
      split_ifs
      · rfl
      · exact inversions_setChild _ _ _

theorem phfwdRemove_rejected (pf : PhoneForward) (num : Option (List Char))
    (h : numIsCorrect num = false) : phfwdRemove pf num = pf := by
  cases pf with
  | null => cases num <;> rfl
  | node next r invs =>
    cases num with
    | none => rfl
    | some n => simp [phfwdRemove, h]

theorem redirAt_phfwdRemove {pf : PhoneForward} (hpf : pf.isNull = false) {n : List Char}
    (hn : numIsCorrect (some n) = true) (o : List Char) :
    redirAt (phfwdRemove pf (some n)) o
      = if numcpy n <+: o then none else redirAt pf o := by
  cases pf with
  | null => simp [isNull] at hpf
  | node next r invs =>
    simp only [phfwdRemove, hn, Bool.not_true, Bool.false_eq_true, if_false]
    have := redirAt_removeWalk (numcpy n) (allDigits_numcpy n) (numcpy_ne_nil hn)
      (node next r (removeInversions n invs)) rfl o
    rw [numcpy] at this
    rw [this, redirAt_node_inversions next r (removeInversions n invs) invs]
    rfl

theorem inversions_phfwdRemove {pf : PhoneForward} {n : List Char}
    (hn : numIsCorrect (some n) = true) :
    (phfwdRemove pf (some n)).inversions = removeInversions n pf.inversions := by
  cases pf with
  | null => rfl
  | node next r invs =>
    simp only [phfwdRemove, hn, Bool.not_true, Bool.false_eq_true, if_false]
    rw [inversions_removeWalk]; rfl

theorem isNull_phfwdRemove (pf : PhoneForward) (num : Option (List Char)) :
    (phfwdRemove pf num).isNull = pf.isNull := by
  cases pf with
  | null => cases num <;> rfl
  | node next r invs =>
    cases num with
    | none => rfl
    | some n =>
      simp only [phfwdRemove]
      split_ifs
      · rfl
      · rw [isNull_removeWalk]; rfl

/-! ## The invariant -/

theorem wf_phfwdNew : WF phfwdNew where
  nonnull := rfl
  root := rfl
  redir_valid := by
    intro o t h; rw [redirAt_phfwdNew] at h; exact Option.noConfusion h
  inv_valid := by
    intro inv h; exact absurd h (List.not_mem_nil _)
  complete := by
    intro o t h; rw [redirAt_phfwdNew] at h; exact Option.noConfusion h

theorem wf_phfwdAdd {pf : PhoneForward} (hpf : WF pf) (num1 num2 : Option (List Char)) :
    WF (phfwdAdd pf num1 num2).2 := by
  cases hflag : (phfwdAdd pf num1 num2).1 with
  | false => rw [phfwdAdd_rejected _ _ _ hflag]; exact hpf
  | true =>
    cases num1 with
    | none => simp [phfwdAdd] at hflag
    | some n1 =>
      cases num2 with
      | none => simp [phfwdAdd] at hflag
      | some n2 =>
        by_cases hg : (pf.isNull || !numIsCorrect (some n1) || !numIsCorrect (some n2)
            || numcmp n1 n2 == 0) = true
        · simp [phfwdAdd, hg] at hflag
        · simp only [Bool.or_eq_true, Bool.not_eq_true', beq_iff_eq, not_or,
            Bool.not_eq_false, Bool.not_eq_true] at hg
          obtain ⟨⟨⟨g1, g2⟩, g3⟩, g4⟩ := hg
          have hred := redirAt_phfwdAdd_ok g1 g2 g3 g4
          have hinv := inversions_phfwdAdd_ok g1 g2 g3 g4
          refine ⟨?_, ?_, ?_, ?_, ?_⟩
          · rw [isNull_phfwdAdd]; exact g1
          · have := hred []
            rw [if_neg (fun h => numcpy_ne_nil g2 h.symm)] at this
            exact this.trans hpf.root
          · intro o t h
            rw [hred] at h
            split_ifs at h with ho
            · injection h with h; rw [← h]; exact validNumber_numcpy g3
            · exact hpf.redir_valid o t h
          · intro inv h
            rw [hinv] at h
            rcases List.mem_append.mp h with h | h
            · exact hpf.inv_valid inv h
            · rw [List.mem_singleton] at h
              rw [h]
              exact ⟨validNumber_numcpy g3, validNumber_numcpy g2⟩
          · intro o t h
            rw [hred] at h
            rw [hinv]
            split_ifs at h with ho
            · injection h with h
              rw [← h, ho]
              exact List.mem_append_right _ (List.mem_singleton_self _)
            · exact List.mem_append_left _ (hpf.complete o t h)

/-- The origins recorded in a well-formed structure are made of symbols. -/
theorem WF.path_digits {pf : PhoneForward} (hpf : WF pf) {o t : List Char}
    (h : redirAt pf o = some t) : ValidNumber o :=
  (hpf.inv_valid _ (hpf.complete o t h)).2

theorem wf_phfwdRemove {pf : PhoneForward} (hpf : WF pf) (num : Option (List Char)) :
    WF (phfwdRemove pf num) := by
  cases hv : numIsCorrect num with
  | false => rw [phfwdRemove_rejected _ _ hv]; exact hpf
  | true =>
    cases num with
    | none => simp [numIsCorrect] at hv
    | some n =>
      have hred := redirAt_phfwdRemove hpf.nonnull hv
      have hinv : (phfwdRemove pf (some n)).inversions = removeInversions n pf.inversions :=
        inversions_phfwdRemove hv
      refine ⟨?_, ?_, ?_, ?_, ?_⟩
      · rw [isNull_phfwdRemove]; exact hpf.nonnull
      · have := hred []
        rw [if_neg (fun h => numcpy_ne_nil hv (List.prefix_nil.mp h))] at this
        exact this.trans hpf.root
      · intro o t h
        rw [hred] at h
        split_ifs at h
        exact hpf.redir_valid o t h
      · intro inv h
        rw [hinv] at h
        exact hpf.inv_valid inv (removeInversions_subset h)
      · intro o t h
        rw [hred] at h
        split_ifs at h with ho
        rw [hinv]
        apply mem_removeInversions (hpf.complete o t h)
        have hov := (hpf.path_digits h).allDigits
        rw [Bool.eq_false_iff]
        intro hpre
        rw [numIsPrefix_iff] at hpre
        simp only at hpre
        rw [numcpy_eq hov] at hpre
        exact ho hpre

theorem wf_applyOp {pf : PhoneForward} (hpf : WF pf) (op : Op) : WF (applyOp pf op) := by
  cases op with
  | add num1 num2 => exact wf_phfwdAdd hpf num1 num2
  | remove num => exact wf_phfwdRemove hpf num

theorem wf_applyOps {pf : PhoneForward} (hpf : WF pf) (ops : List Op) :
    WF (applyOps pf ops) := by
  induction ops generalizing pf with
  | nil => exact hpf
  | cons op ops ih => exact ih (wf_applyOp hpf op)

/-- Every structure a caller can hold satisfies the invariant. -/
theorem Reachable.wf {pf : PhoneForward} (h : Reachable pf) : WF pf := by
  obtain ⟨ops, rfl⟩ := h
  exact wf_applyOps wf_phfwdNew ops

theorem reachable_new : Reachable phfwdNew := ⟨[], rfl⟩

theorem Reachable.add {pf : PhoneForward} (h : Reachable pf) (num1 num2 : Option (List Char)) :
    Reachable (phfwdAdd pf num1 num2).2 := by
  obtain ⟨ops, rfl⟩ := h
  exact ⟨ops ++ [Op.add num1 num2], by simp [applyOps, applyOp]⟩

theorem Reachable.remove {pf : PhoneForward} (h : Reachable pf) (num : Option (List Char)) :
    Reachable (phfwdRemove pf num) := by
  obtain ⟨ops, rfl⟩ := h
  exact ⟨ops ++ [Op.remove num], by simp [applyOps, applyOp]⟩

theorem Reachable.applyAdds {pf : PhoneForward} (h : Reachable pf)
    (adds : List (List Char × List Char)) : Reachable (applyAdds pf adds) := by
  induction adds generalizing pf with
  | nil => exact h
  | cons a adds ih => exact ih (h.add (some a.1) (some a.2))

/-! ## Lookup depends on the redirections along the path only -/

theorem phfwdGet_congr {pf1 pf2 : PhoneForward} (h1 : WF pf1) (h2 : WF pf2) {q : List Char}
    (hq : ValidNumber q)
    (h : ∀ k, k ≤ q.length → redirAt pf1 (q.take k) = redirAt pf2 (q.take k)) :
    phfwdGet pf1 (some q) = phfwdGet pf2 (some q) := by
  rcases phfwdGet_cases h1 hq with ⟨a1, r1⟩ | ⟨k1, t1, _, le1, e1, m1, r1⟩
  · rcases phfwdGet_cases h2 hq with ⟨_, r2⟩ | ⟨k2, t2, _, le2, e2, _, _⟩
    · rw [r1, r2]
    · rw [← h k2 le2, a1 k2 le2] at e2
      exact Option.noConfusion e2
  · rcases phfwdGet_cases h2 hq with ⟨a2, _⟩ | ⟨k2, t2, _, le2, e2, m2, r2⟩
    · rw [h k1 le1, a2 k1 le1] at e1
      exact Option.noConfusion e1
    · have hk : k1 = k2 := by
        rcases Nat.lt_trichotomy k1 k2 with hlt | heq | hgt
        · have := m1 k2 hlt le2
          rw [h k2 le2, e2] at this
          exact Option.noConfusion this
        · exact heq
        · have := m2 k1 hgt le1
          rw [← h k1 le1, e1] at this
          exact Option.noConfusion this
      subst hk
      rw [h k1 le1, e2] at e1
      injection e1 with e1
      rw [r1, r2, e1]

theorem numlen_append {a : List Char} (ha : AllDigits a) (r : List Char) :
    numlen (a ++ r) = a.length + numlen r := by
  induction a with
  | nil => simp
  | cons c cs ih =>
    have hc : numDigitIsCorrect c = true := ha c (List.mem_cons_self _ _)
    have hcs : AllDigits cs := fun d hd => ha d (List.mem_cons_of_mem _ hd)
    show numlen (c :: (cs ++ r)) = (c :: cs).length + numlen r
    simp only [numlen, hc, if_true, ih hcs, List.length_cons]
    omega

theorem prefix_numcpy_iff {a : List Char} (ha : AllDigits a) (b : List Char) :
    a <+: numcpy b ↔ a <+: b := by
  constructor
  · intro h
    exact h.trans (List.take_prefix _ _)
  · rintro ⟨r, rfl⟩
    unfold numcpy
    rw [numlen_append ha, List.take_append]
    exact List.prefix_append _ _

/-- The redirections after any call of `phfwdAdd` with non-null strings. -/
theorem redirAt_phfwdAdd {pf : PhoneForward} (hpf : pf.isNull = false) (n1 n2 o : List Char) :
    redirAt (phfwdAdd pf (some n1) (some n2)).2 o
      = if (numIsCorrect (some n1) = true ∧ numIsCorrect (some n2) = true ∧ numcmp n1 n2 ≠ 0)
            ∧ o = numcpy n1
        then some (numcpy n2) else redirAt pf o := by
  by_cases hg : numIsCorrect (some n1) = true ∧ numIsCorrect (some n2) = true ∧ numcmp n1 n2 ≠ 0
  · rw [redirAt_phfwdAdd_ok hpf hg.1 hg.2.1 hg.2.2]
    simp only [hg, true_and, ne_eq, not_false_eq_true, and_self]
  · have hflag : (phfwdAdd pf (some n1) (some n2)).1 = false := by
      simp only [phfwdAdd]
      split_ifs with hc
      · rfl
      · exfalso
        apply hg
        simp only [Bool.or_eq_true, Bool.not_eq_true', beq_iff_eq, not_or,
          Bool.not_eq_false, Bool.not_eq_true] at hc
        exact ⟨hc.1.1.2, hc.1.2, hc.2⟩
    rw [phfwdAdd_rejected _ _ _ hflag, if_neg (fun h => hg h.1)]

/-- Removing `p` after a run of insertions leaves the redirections that the run
without the insertions at or below `p` produces. -/
theorem redirAt_applyAdds_filter (p : List Char) (hp : AllDigits p)
    (adds : List (List Char × List Char)) (pf1 pf2 : PhoneForward)
    (h1 : pf1.isNull = false) (h2 : pf2.isNull = false)
    (h : ∀ o, redirAt pf2 o = if p <+: o then none else redirAt pf1 o) (o : List Char) :
    redirAt (applyAdds pf2 (adds.filter (fun a => decide (¬ p <+: a.1)))) o
      = if p <+: o then none else redirAt (applyAdds pf1 adds) o := by
  induction adds generalizing pf1 pf2 with
  | nil => exact h o
  | cons a adds ih =>
    have n1 : (phfwdAdd pf1 (some a.1) (some a.2)).2.isNull = false := by
      rw [isNull_phfwdAdd]; exact h1
    by_cases hpa : p <+: a.1
    · have hf : (a :: adds).filter (fun a => decide (¬ p <+: a.1))
          = adds.filter (fun a => decide (¬ p <+: a.1)) := by
        rw [List.filter_cons_of_neg]; simpa using hpa
      rw [hf]
      apply ih _ _ n1 h2
      intro o1
      rw [h o1, redirAt_phfwdAdd h1]
      by_cases hpo : p <+: o1
      · simp [hpo]
      · have : o1 ≠ numcpy a.1 := by
          rintro rfl
          exact hpo ((prefix_numcpy_iff hp _).mpr hpa)
        simp [hpo, this]
    · have hf : (a :: adds).filter (fun a => decide (¬ p <+: a.1))
          = a :: adds.filter (fun a => decide (¬ p <+: a.1)) := by
        rw [List.filter_cons_of_pos]; simpa using hpa
      rw [hf]
      have n2 : (phfwdAdd pf2 (some a.1) (some a.2)).2.isNull = false := by
        rw [isNull_phfwdAdd]; exact h2
      apply ih _ _ n1 n2
      intro o1
      rw [redirAt_phfwdAdd h2, redirAt_phfwdAdd h1, h o1]
      by_cases hpo : p <+: o1
      · have : o1 ≠ numcpy a.1 := by
          rintro rfl
          exact hpa ((prefix_numcpy_iff hp _).mp hpo)
        simp [hpo, this]
      · simp [hpo]

/-- Lookup when the node of the prefix of length `k` is the deepest redirected
node of the path. -/
theorem phfwdGet_of_deepest {pf : PhoneForward} (hwf : WF pf) {n : List Char}
    (hn : ValidNumber n) {k : Nat} {t : List Char} (hk : k ≤ n.length)
    (ht : redirAt pf (n.take k) = some t)
    (hmax : ∀ i, k < i → i ≤ n.length → redirAt pf (n.take i) = none) :
    phfwdGet pf (some n) = some [t ++ n.drop k] := by
  rcases phfwdGet_cases hwf hn with ⟨a1, _⟩ | ⟨k1, t1, _, le1, e1, m1, r1⟩
  · rw [a1 k hk] at ht
    exact Option.noConfusion ht
  · have hkk : k = k1 := by
      rcases Nat.lt_trichotomy k k1 with hlt | heq | hgt
      · have := hmax k1 hlt le1
        rw [e1] at this
        exact Option.noConfusion this
      · exact heq
      · have := m1 k hgt hk
        rw [ht] at this
        exact Option.noConfusion this
    subst hkk
    rw [ht] at e1
    injection e1 with e1
    rw [r1, e1]

/-- Lookup when no node of the path is redirected. -/
theorem phfwdGet_of_none {pf : PhoneForward} (hwf : WF pf) {n : List Char}
    (hn : ValidNumber n) (hall : ∀ k, k ≤ n.length → redirAt pf (n.take k) = none) :
    phfwdGet pf (some n) = some [n] := by
  rcases phfwdGet_cases hwf hn with ⟨_, r1⟩ | ⟨k1, t1, _, le1, e1, _, _⟩
  · exact r1
  · rw [hall k1 le1] at e1
    exact Option.noConfusion e1

theorem validNumber_append {a s : List Char} (ha : ValidNumber a) (hs : AllDigits s) :
    ValidNumber (a ++ s) :=
  validNumber_iff.mpr ⟨by simp [ha.ne_nil], allDigits_append ha.allDigits hs⟩

theorem numcmp_ne_zero {a b : List Char} (ha : ValidNumber a) (hb : ValidNumber b)
    (h : a ≠ b) : numcmp a b ≠ 0 :=
  fun h0 => h ((numcmp_eq_zero ha.allDigits hb.allDigits).mp h0)

/-- Lookup of `a12` in a structure where `a1` is redirected to `c` and `a12` is
not redirected. -/
theorem phfwdGet_a12 {pf : PhoneForward} (hwf : WF pf) {a c : List Char}
    (ha : ValidNumber a)
    (h1 : redirAt pf (a ++ "1".toList) = some c)
    (h12 : redirAt pf (a ++ "12".toList) = none) :
    phfwdGet pf (some (a ++ "12".toList)) = some [c ++ "2".toList] := by
  have hv : ValidNumber (a ++ "12".toList) := validNumber_append ha (by decide)
  have hlen : (a ++ "12".toList).length = a.length + 2 := by simp
  have htake : (a ++ "12".toList).take (a.length + 1) = a ++ "1".toList := by
    rw [List.take_append]; rfl
  have hdrop : (a ++ "12".toList).drop (a.length + 1) = "2".toList := by
    rw [List.drop_append]; rfl
  have := phfwdGet_of_deepest hwf hv (k := a.length + 1) (t := c) (by omega)
    (by rw [htake]; exact h1)
    (by
      intro i hi1 hi2
      have hi : i = (a ++ "12".toList).length := by omega
      rw [hi, List.take_length]
      exact h12)
  rw [this, hdrop]

/-! ## Reverse queries: what the loops compute -/

theorem phnumAdd_valid (pnum : PhoneNumbers) {x : List Char} (hx : ValidNumber x) :
    phnumAdd pnum x = some (pnum ++ [x]) := by
  simp [phnumAdd, hx.correct, numcpy_eq hx.allDigits]

theorem mem_candidates {num : List Char} {invs : List Inversion} {x : List Char} :
    x ∈ candidates num invs ↔
      ∃ inv ∈ invs, numIsPrefix inv.forward num = true ∧
        x = inv.origin ++ num.drop inv.forward.length := by
  unfold candidates
  simp only [List.mem_map, List.mem_filter]
  constructor
  · rintro ⟨inv, ⟨h1, h2⟩, rfl⟩
    exact ⟨inv, h1, h2, rfl⟩
  · rintro ⟨inv, h1, h2, rfl⟩
    exact ⟨inv, ⟨h1, h2⟩, rfl⟩

theorem candidates_valid {num : List Char} (hn : ValidNumber num) {invs : List Inversion}
    (hinv : ∀ inv ∈ invs, ValidNumber inv.forward ∧ ValidNumber inv.origin) :
    ∀ x ∈ candidates num invs, ValidNumber x := by
  intro x hx
  obtain ⟨inv, hmem, _, rfl⟩ := mem_candidates.mp hx
  exact validNumber_append (hinv inv hmem).2 (allDigits_drop hn.allDigits _)

theorem reverseLoop_eq {num : List Char} (hn : ValidNumber num) (invs : List Inversion)
    (hinv : ∀ inv ∈ invs, ValidNumber inv.forward ∧ ValidNumber inv.origin)
    (pnum : PhoneNumbers) :
    reverseLoop num invs pnum = some (pnum ++ candidates num invs) := by
  induction invs generalizing pnum with
  | nil => simp [reverseLoop, candidates]
  | cons inv invs ih =>
    have hv := hinv inv (List.mem_cons_self _ _)
    have hrest : ∀ i ∈ invs, ValidNumber i.forward ∧ ValidNumber i.origin :=
      fun i hi => hinv i (List.mem_cons_of_mem _ hi)
    simp only [reverseLoop]
    by_cases hp : numIsPrefix inv.forward num = true
    · have hcand : numcat (numcpy inv.origin) (num.drop (numlen inv.forward))
          = inv.origin ++ num.drop inv.forward.length := by
        rw [numcpy_eq hv.2.allDigits, numlen_eq_length hv.1.allDigits,
          numcat_eq hv.2.allDigits (allDigits_drop hn.allDigits _)]
      have hcv : ValidNumber (inv.origin ++ num.drop inv.forward.length) :=
        validNumber_append hv.2 (allDigits_drop hn.allDigits _)
      rw [if_pos hp, hcand, phnumAdd_valid _ hcv]
      simp only
      rw [ih hrest]
      simp [candidates, hp]
    · rw [if_neg hp, ih hrest]
      simp [candidates, hp]

theorem dedupLoop_eq (xs : List (List Char)) (hxs : ∀ x ∈ xs, ValidNumber x)
    (prev : List Char) (res : PhoneNumbers) :
    dedupLoop xs prev res = some (res ++ dedupAdjacent prev xs) := by
  induction xs generalizing prev res with
  | nil => simp [dedupLoop, dedupAdjacent]
  | cons x xs ih =>
    have hx := hxs x (List.mem_cons_self _ _)
    have hrest : ∀ y ∈ xs, ValidNumber y := fun y hy => hxs y (List.mem_cons_of_mem _ hy)
    simp only [dedupLoop, dedupAdjacent]
    by_cases hc : numcmp x prev = 0
    · simp only [hc, ne_eq, not_true_eq_false, if_false]
      exact ih hrest x res
    · simp only [hc, ne_eq, not_false_eq_true, if_true]
      rw [phnumAdd_valid _ hx]
      simp only
      rw [ih hrest x (res ++ [x])]
      simp

theorem dedupAdjacent_pairwise (xs : List (List Char)) (prev : List Char)
    (hs : (prev :: xs).Sorted (fun a b => numcmp a b ≤ 0)) :
    (prev :: dedupAdjacent prev xs).Pairwise (fun a b => numcmp a b < 0) := by
  induction xs generalizing prev with
  | nil => simp [dedupAdjacent]
  | cons x xs ih =>
    have hs1 : (x :: xs).Sorted (fun a b => numcmp a b ≤ 0) := hs.of_cons
    have hpx : numcmp prev x ≤ 0 := List.rel_of_sorted_cons hs x (List.mem_cons_self _ _)
    have hih := ih x hs1
    rw [List.pairwise_cons] at hih
    have hbelow : ∀ y ∈ dedupAdjacent x xs, numcmp prev y < 0 :=
      fun y hy => numcmp_lt_of_le_of_lt hpx (hih.1 y hy)
    simp only [dedupAdjacent]
    by_cases hc : numcmp x prev = 0
    · simp only [hc, ne_eq, not_true_eq_false, if_false]
      exact List.pairwise_cons.mpr ⟨hbelow, hih.2⟩
    · simp only [hc, ne_eq, not_false_eq_true, if_true]
      refine List.pairwise_cons.mpr ⟨?_, List.pairwise_cons.mpr hih⟩
      intro y hy
      rcases List.mem_cons.mp hy with rfl | hy
      · have := numcmp_antisymm prev y
        omega
      · exact hbelow y hy

theorem mem_dedupAdjacent (xs : List (List Char)) (prev : List Char)
    (hv : ∀ x ∈ prev :: xs, ValidNumber x) (y : List Char) :
    y ∈ prev :: dedupAdjacent prev xs ↔ y ∈ prev :: xs := by
  induction xs generalizing prev with
  | nil => simp [dedupAdjacent]
  | cons x xs ih =>
    have hp := hv prev (List.mem_cons_self _ _)
    have hx := hv x (List.mem_cons_of_mem _ (List.mem_cons_self _ _))
    have hih := ih x (fun z hz => hv z (List.mem_cons_of_mem _ hz))
    simp only [dedupAdjacent]
    by_cases hc : numcmp x prev = 0
    · have hxp : x = prev := (numcmp_eq_zero hx.allDigits hp.allDigits).mp hc
      subst hxp
      simp only [hc, ne_eq, not_true_eq_false, if_false]
      rw [hih]
      simp
    · simp only [hc, ne_eq, not_false_eq_true, if_true]
      rw [List.mem_cons, hih]
      simp

theorem qsort_perm {α : Type} (cmp : α → α → Int) (l : List α) : (qsort cmp l).Perm l :=
  List.perm_insertionSort _ l

theorem qsort_numcmp_sorted (l : List (List Char)) :
    (qsort numcmp l).Sorted (fun a b => numcmp a b ≤ 0) := by
  haveI : IsTotal (List Char) (fun x y => numcmp x y ≤ 0) :=
    ⟨fun a b => by have := numcmp_antisymm a b; omega⟩
  haveI : IsTrans (List Char) (fun x y => numcmp x y ≤ 0) :=
    ⟨fun _ _ _ => numcmp_trans⟩
  exact List.sorted_insertionSort _ l

/-- The result of `phfwdReverse` on a valid number: it is returned, strictly
ascending for `numcmp`, made of valid numbers, and its entries are `num` and
the candidates of the index. -/
theorem phfwdReverse_spec {pf : PhoneForward} (hwf : WF pf) {num : List Char}
    (hn : ValidNumber num) :
    ∃ res, phfwdReverse pf (some num) = some res ∧
      res.Pairwise (fun a b => numcmp a b < 0) ∧
      (∀ x, x ∈ res ↔ x = num ∨ x ∈ candidates num pf.inversions) ∧
      (∀ x ∈ res, ValidNumber x) := by
  have hnn := hwf.nonnull
  have hinv := hwf.inv_valid
  cases pf with
  | null => simp [isNull] at hnn
  | node next r invs =>
    have hinv1 : ∀ inv ∈ invs, ValidNumber inv.forward ∧ ValidNumber inv.origin := hinv
    have hall : ∀ x ∈ num :: candidates num invs, ValidNumber x := by
      intro x hx
      rcases List.mem_cons.mp hx with rfl | hx
      · exact hn
      · exact candidates_valid hn hinv1 x hx
    have hperm := qsort_perm numcmp (num :: candidates num invs)
    have hsorted := qsort_numcmp_sorted (num :: candidates num invs)
    simp only [phfwdReverse, hn.correct, Bool.not_true, Bool.false_eq_true, if_false,
      phnumAdd_valid [] hn, reverseLoop_eq hn invs hinv1, List.nil_append,
      List.singleton_append]
    cases hq : qsort numcmp (num :: candidates num invs) with
    | nil =>
      rw [hq] at hperm
      have := hperm.length_eq
      simp at this
    | cons first rest =>
      rw [hq] at hperm hsorted
      have hv : ∀ x ∈ first :: rest, ValidNumber x :=
        fun x hx => hall x (hperm.subset hx)
      simp only [phnumAdd_valid [] (hv first (List.mem_cons_self _ _)), List.nil_append]
      rw [dedupLoop_eq rest (fun x hx => hv x (List.mem_cons_of_mem _ hx))]
      refine ⟨_, rfl, ?_, ?_, ?_⟩
      · exact dedupAdjacent_pairwise rest first hsorted
      · intro x
        rw [List.singleton_append, mem_dedupAdjacent rest first hv, hperm.mem_iff,
          List.mem_cons]
        rfl
      · intro x hx
        rw [List.singleton_append, mem_dedupAdjacent rest first hv] at hx
        exact hv x hx

/-- On a valid number `phfwdGet` returns one valid number. -/
theorem phfwdGet_valid {pf : PhoneForward} (hwf : WF pf) {x : List Char}
    (hx : ValidNumber x) : ∃ r, phfwdGet pf (some x) = some [r] ∧ ValidNumber r := by
  rcases phfwdGet_cases hwf hx with ⟨_, r1⟩ | ⟨k1, t1, _, _, e1, _, r1⟩
  · exact ⟨x, r1, hx⟩
  · exact ⟨_, r1, validNumber_append (hwf.redir_valid _ _ e1) (allDigits_drop hx.allDigits _)⟩

theorem getReverseLoop_eq {pf : PhoneForward} (hwf : WF pf) {num : List Char}
    (hn : ValidNumber num) (xs : List (List Char)) (hxs : ∀ x ∈ xs, ValidNumber x)
    (res : PhoneNumbers) :
    getReverseLoop pf num xs res
      = some (res ++ xs.filter (fun x => decide (phfwdGet pf (some x) = some [num]))) := by
  induction xs generalizing res with
  | nil => simp [getReverseLoop]
  | cons x xs ih =>
    have hx := hxs x (List.mem_cons_self _ _)
    have hrest : ∀ y ∈ xs, ValidNumber y := fun y hy => hxs y (List.mem_cons_of_mem _ hy)
    obtain ⟨r, hr, hrv⟩ := phfwdGet_valid hwf hx
    simp only [getReverseLoop, hr, phnumGet]
    by_cases hc : numcmp r num = 0
    · have hrn : r = num := (numcmp_eq_zero hrv.allDigits hn.allDigits).mp hc
      subst hrn
      simp [phnumAdd_valid _ hx, ih hrest, hr, hc]
    · have hrn : r ≠ num := fun h => hc ((numcmp_eq_zero hrv.allDigits hn.allDigits).mpr h)
      simp [hc, ih hrest, hr, hrn]

/-- The result of `phfwdGetReverse` on a valid number: the entries of
`phfwdReverse` that `phfwdGet` sends to `num`, in the same order. -/
theorem phfwdGetReverse_eq {pf : PhoneForward} (hwf : WF pf) {num : List Char}
    (hn : ValidNumber num) {res : PhoneNumbers}
    (hres : phfwdReverse pf (some num) = some res) (hv : ∀ x ∈ res, ValidNumber x) :
    phfwdGetReverse pf (some num)
      = some (res.filter (fun x => decide (phfwdGet pf (some x) = some [num]))) := by
  have hnn := hwf.nonnull
  cases pf with
  | null => simp [isNull] at hnn
  | node next r invs =>
    simp only [phfwdGetReverse, hn.correct, Bool.not_true, Bool.false_eq_true, if_false, hres]
    rw [getReverseLoop_eq hwf hn res hv]
    simp

/-- Completeness of the index: whatever `phfwdGet` sends to `num` is `num` or a
candidate of `phfwdReverse`. -/
theorem mem_candidates_of_phfwdGet {pf : PhoneForward} (hwf : WF pf) {x num : List Char}
    (hx : ValidNumber x) (h : phfwdGet pf (some x) = some [num]) :
    x = num ∨ x ∈ candidates num pf.inversions := by
  rcases phfwdGet_cases hwf hx with ⟨_, r1⟩ | ⟨k1, t1, _, le1, e1, _, r1⟩
  · left
    rw [r1] at h
    injection h with h
    injection h with h
  · right
    rw [r1] at h
    injection h with h
    injection h with h
    have hrec := hwf.complete _ _ e1
    have htv := (hwf.redir_valid _ _ e1).allDigits
    have hnum : AllDigits num := by
      rw [← h]; exact allDigits_append htv (allDigits_drop hx.allDigits _)
    rw [mem_candidates]
    refine ⟨_, hrec, ?_, ?_⟩
    · simp only
      rw [numIsPrefix_iff_of_digits htv hnum, ← h]
      exact List.prefix_append _ _
    · simp only
      rw [← h, List.drop_left' rfl, List.take_append_drop]

theorem numcmp_lt_iff {a b : List Char} (ha : AllDigits a) (hb : AllDigits b) :
    numcmp a b < 0 ↔ NumLt a b := by
  rw [numcmp_eq_lexCmp]
  unfold NumLt ranks
  rw [numcpy_eq ha, numcpy_eq hb]
  generalize a.map numDigitToIndex = u
  generalize b.map numDigitToIndex = v
  induction u generalizing v with
  | nil =>
    cases v with
    | nil => simp [lexCmp, List.Lex.not_nil_right]
    | cons y ys => simp [lexCmp, List.Lex.nil]
  | cons x xs ih =>
    cases v with
    | nil => simp [lexCmp, List.Lex.not_nil_right]
    | cons y ys =>
      simp only [lexCmp]
      split_ifs with h1 h2
      · constructor
        · intro h; omega
        · intro h
          cases h with
          | cons h => omega
          | rel h => omega
      · constructor
        · intro _; exact List.Lex.rel h2
        · intro _; omega
      · have hxy : x = y := by omega
        subst hxy
        rw [ih]
        exact List.Lex.cons_iff.symm

theorem numcmp_self (a : List Char) : numcmp a a = 0 :=
  (numcmp_eq_zero_numcpy a a).mpr rfl

theorem pairwise_numLt {l : List (List Char)} (hv : ∀ x ∈ l, ValidNumber x)
    (h : l.Pairwise (fun a b => numcmp a b < 0)) : l.Pairwise NumLt :=
  h.imp_of_mem (fun ha hb hab => (numcmp_lt_iff (hv _ ha).allDigits (hv _ hb).allDigits).mp hab)

theorem nodup_of_pairwise_numcmp {l : List (List Char)}
    (h : l.Pairwise (fun a b => numcmp a b < 0)) : l.Nodup :=
  h.imp (fun hab heq => by
    subst heq
    rw [numcmp_self] at hab
    exact absurd hab (by decide))

/-! ## Forward lookup and insertion: the claims -/

/-- C1: on a structure a caller can hold and a valid number `num`, `phfwdGet`
returns exactly one number: `num` itself when no node on the path of `num`
carries a redirection, and otherwise the redirection target `t` of the deepest
node on the path that carries one (the node of the longest redirected prefix
`num.take k`) followed by the rest of `num` after that prefix. -/
theorem phfwdGet_longest_redirected (pf : PhoneForward) (num : List Char)
    (hpf : Reachable pf) (hnum : ValidNumber num) :
    ((∀ k, k ≤ num.length → redirAt pf (num.take k) = none) →
        phfwdGet pf (some num) = some [num]) ∧
    (∀ k t, k ≤ num.length → redirAt pf (num.take k) = some t →
        (∀ i, k < i → i ≤ num.length → redirAt pf (num.take i) = none) →
        phfwdGet pf (some num) = some [t ++ num.drop k]) := by
  rcases phfwdGet_cases hpf.wf hnum with ⟨a1, r1⟩ | ⟨k1, t1, _, le1, e1, m1, r1⟩
  · refine ⟨fun _ => r1, ?_⟩
    intro k t hk ht _
    rw [a1 k hk] at ht
    exact Option.noConfusion ht
  · refine ⟨?_, ?_⟩
    · intro hall
      rw [hall k1 le1] at e1
      exact Option.noConfusion e1
    · intro k t hk ht hmax
      have hkk : k = k1 := by
        rcases Nat.lt_trichotomy k k1 with hlt | heq | hgt
        · have := hmax k1 hlt le1
          rw [e1] at this
          exact Option.noConfusion this
        · exact heq
        · have := m1 k hgt hk
          rw [ht] at this
          exact Option.noConfusion this
      subst hkk
      rw [ht] at e1
      injection e1 with e1
      rw [r1, e1]

/-- Instance of C1: with the rule `123 -> 456` alone, looking `1234` up rewrites
the prefix of length `3`. -/
theorem phfwdGet_longest_redirected_witness :
    phfwdGet (applyAdds phfwdNew [("123".toList, "456".toList)]) (some "1234".toList)
      = some ["456".toList ++ "1234".toList.drop 3] :=
  (phfwdGet_longest_redirected (applyAdds phfwdNew [("123".toList, "456".toList)])
    "1234".toList (reachable_new.applyAdds _) (by decide)).2 3 "456".toList
    (by decide) (by decide)
    (by
      intro i h1 h2
      have h2 : i ≤ 4 := h2
      have hi : i = 4 := by omega
      subst hi
      decide)

/-- C2: on a structure a caller can hold, for valid `x` and `y` with `x ≠ y` and
any run `s` of alphabet symbols: `phfwdAdd` of `x -> y` succeeds, and afterwards
looking `x ++ s` up yields exactly `y ++ s`, provided no prefix of `x ++ s`
strictly longer than `x` carries a redirection in the structure. -/
theorem phfwdGet_after_phfwdAdd (pf : PhoneForward) (x y s : List Char)
    (hpf : Reachable pf) (hx : ValidNumber x) (hy : ValidNumber y) (hxy : x ≠ y)
    (hs : AllDigits s)
    (hfree : ∀ k, x.length < k → k ≤ (x ++ s).length →
      redirAt pf ((x ++ s).take k) = none) :
    (phfwdAdd pf (some x) (some y)).1 = true ∧
    phfwdGet (phfwdAdd pf (some x) (some y)).2 (some (x ++ s)) = some [y ++ s] := by
  have hne : numcmp x y ≠ 0 := fun h => hxy ((numcmp_eq_zero hx.allDigits hy.allDigits).mp h)
  have hnn := hpf.wf.nonnull
  have hok := phfwdAdd_ok hnn hx.correct hy.correct hne
  have hred := redirAt_phfwdAdd_ok hnn hx.correct hy.correct hne
  rw [numcpy_eq hx.allDigits, numcpy_eq hy.allDigits] at hred
  have hwf : WF (phfwdAdd pf (some x) (some y)).2 := wf_phfwdAdd hpf.wf _ _
  have hxs : ValidNumber (x ++ s) :=
    validNumber_iff.mpr ⟨by simp [hx.ne_nil], allDigits_append hx.allDigits hs⟩
  have hat : redirAt (phfwdAdd pf (some x) (some y)).2 ((x ++ s).take x.length) = some y := by
    rw [hred, List.take_left', if_pos rfl]; rfl
  have hlen : x.length ≤ (x ++ s).length := by simp
  refine ⟨by rw [hok], ?_⟩
  rcases phfwdGet_cases hwf hxs with ⟨a1, _⟩ | ⟨k1, t1, _, le1, e1, m1, r1⟩
  · rw [a1 _ hlen] at hat
    exact Option.noConfusion hat
  · have hk : k1 = x.length := by
      rcases Nat.lt_trichotomy k1 x.length with hlt | heq | hgt
      · have := m1 _ hlt hlen
        rw [hat] at this
        exact Option.noConfusion this
      · exact heq
      · have hnx : (x ++ s).take k1 ≠ x := by
          intro h
          have := congrArg List.length h
          rw [List.length_take] at this
          omega
        rw [hred, if_neg hnx, hfree k1 hgt le1] at e1
        exact Option.noConfusion e1
    subst hk
    rw [hat] at e1
    injection e1 with e1
    rw [r1, ← e1, List.drop_left']
    rfl

/-- Instance of C2: after `12 -> 7` on an empty structure, `1234` is sent to `734`. -/
theorem phfwdGet_after_phfwdAdd_witness :
    (phfwdAdd phfwdNew (some "12".toList) (some "7".toList)).1 = true ∧
    phfwdGet (phfwdAdd phfwdNew (some "12".toList) (some "7".toList)).2
      (some ("12".toList ++ "34".toList)) = some ["7".toList ++ "34".toList] :=
  phfwdGet_after_phfwdAdd phfwdNew "12".toList "7".toList "34".toList reachable_new
    (by decide) (by decide) (by decide) (by decide)
    (by intro k _ _; exact redirAt_phfwdNew _)

/-- C3, the claim as stated fails: on the structure holding `112 -> 7`, after the
insertions `1 -> 5` and `11 -> 6` (no removal anywhere), looking `112` up uses
the rule of `112` and yields `7`, not `62`. -/
theorem longest_prefix_priority_counterexample :
    ValidNumber "1".toList ∧ ValidNumber "5".toList ∧ ValidNumber "6".toList ∧
    "1".toList ≠ "5".toList ∧ "1".toList ++ "1".toList ≠ "6".toList ∧
    Reachable (phfwdAdd phfwdNew (some "112".toList) (some "7".toList)).2 ∧
    phfwdGet
      (phfwdAdd
        (phfwdAdd (phfwdAdd phfwdNew (some "112".toList) (some "7".toList)).2
          (some "1".toList) (some "5".toList)).2
        (some ("1".toList ++ "1".toList)) (some "6".toList)).2
      (some ("1".toList ++ "12".toList)) ≠ some ["6".toList ++ "2".toList] :=
  ⟨by decide, by decide, by decide, by decide, by decide, reachable_new.add _ _, by decide⟩

/-- C3, amended: on a structure a caller can hold in which `a12` itself carries
no redirection, for valid `a`, `b`, `c` with `a ≠ b` and `a1 ≠ c`, once
`a -> b` and `a1 -> c` have been inserted, in either order, looking `a12` up
uses the rule of `a1` and yields `c2`. -/
theorem longest_prefix_priority (pf : PhoneForward) (a b c : List Char)
    (hpf : Reachable pf) (ha : ValidNumber a) (hb : ValidNumber b) (hc : ValidNumber c)
    (hab : a ≠ b) (hac : a ++ "1".toList ≠ c)
    (hfree : redirAt pf (a ++ "12".toList) = none) :
    phfwdGet
        (phfwdAdd (phfwdAdd pf (some a) (some b)).2 (some (a ++ "1".toList)) (some c)).2
        (some (a ++ "12".toList)) = some [c ++ "2".toList] ∧
    phfwdGet
        (phfwdAdd (phfwdAdd pf (some (a ++ "1".toList)) (some c)).2 (some a) (some b)).2
        (some (a ++ "12".toList)) = some [c ++ "2".toList] := by
  have ha1 : ValidNumber (a ++ "1".toList) := validNumber_append ha (by decide)
  have nab := numcmp_ne_zero ha hb hab
  have nac := numcmp_ne_zero ha1 hc hac
  have hnn := hpf.wf.nonnull
  have e1 := numcpy_eq ha.allDigits
  have e2 := numcpy_eq hb.allDigits
  have e3 := numcpy_eq hc.allDigits
  have e4 := numcpy_eq ha1.allDigits
  have ne1 : a ++ "1".toList ≠ a := by
    intro h; have := congrArg List.length h; simp at this
  have ne2 : a ++ "12".toList ≠ a := by
    intro h; have := congrArg List.length h; simp at this
  have ne3 : a ++ "12".toList ≠ a ++ "1".toList := by
    intro h; have := congrArg List.length h; simp at this
  constructor
  · have n1 : (phfwdAdd pf (some a) (some b)).2.isNull = false := by
      rw [isNull_phfwdAdd]; exact hnn
    apply phfwdGet_a12 (wf_phfwdAdd (wf_phfwdAdd hpf.wf _ _) _ _) ha
    · rw [redirAt_phfwdAdd_ok n1 ha1.correct hc.correct nac, e4, e3, if_pos rfl]
    · rw [redirAt_phfwdAdd_ok n1 ha1.correct hc.correct nac, e4, if_neg ne3,
        redirAt_phfwdAdd_ok hnn ha.correct hb.correct nab, e1, if_neg ne2]
      exact hfree
  · have n1 : (phfwdAdd pf (some (a ++ "1".toList)) (some c)).2.isNull = false := by
      rw [isNull_phfwdAdd]; exact hnn
    apply phfwdGet_a12 (wf_phfwdAdd (wf_phfwdAdd hpf.wf _ _) _ _) ha
    · rw [redirAt_phfwdAdd_ok n1 ha.correct hb.correct nab, e1, if_neg ne1,
        redirAt_phfwdAdd_ok hnn ha1.correct hc.correct nac, e4, e3, if_pos rfl]
    · rw [redirAt_phfwdAdd_ok n1 ha.correct hb.correct nab, e1, if_neg ne2,
        redirAt_phfwdAdd_ok hnn ha1.correct hc.correct nac, e4, if_neg ne3]
      exact hfree

/-- Instance of amended C3 on an empty structure: `1 -> 5`, `11 -> 6`, and `112`
is sent to `62` whatever the order of the insertions. -/
theorem longest_prefix_priority_witness :
    phfwdGet
        (phfwdAdd (phfwdAdd phfwdNew (some "1".toList) (some "5".toList)).2
          (some ("1".toList ++ "1".toList)) (some "6".toList)).2
        (some ("1".toList ++ "12".toList)) = some ["6".toList ++ "2".toList] ∧
    phfwdGet
        (phfwdAdd (phfwdAdd phfwdNew (some ("1".toList ++ "1".toList)) (some "6".toList)).2
          (some "1".toList) (some "5".toList)).2
        (some ("1".toList ++ "12".toList)) = some ["6".toList ++ "2".toList] :=
  longest_prefix_priority phfwdNew "1".toList "5".toList "6".toList reachable_new
    (by decide) (by decide) (by decide) (by decide) (by decide) (redirAt_phfwdNew _)

/-- C4, the claim as stated fails: after `123 -> 456` and `1234 -> 789` on an
empty structure, looking `12345` up does not yield `4565`. -/
theorem round_trip_counterexample :
    ¬ (phfwdGet (applyAdds phfwdNew
          [("123".toList, "456".toList), ("1234".toList, "789".toList)])
          (some "1234".toList) = some ["789".toList] ∧
       phfwdGet (applyAdds phfwdNew
          [("123".toList, "456".toList), ("1234".toList, "789".toList)])
          (some "12345".toList) = some ["4565".toList]) := by
  decide

/-- C4, amended: after `123 -> 456` and `1234 -> 789` on an empty structure,
looking `1234` up yields `789` and looking `12345` up yields `7895`, the rule
of the longest redirected prefix `1234` followed by the remaining `5`. -/
theorem round_trip_scenario :
    phfwdGet (applyAdds phfwdNew
        [("123".toList, "456".toList), ("1234".toList, "789".toList)])
        (some "1234".toList) = some ["789".toList] ∧
    phfwdGet (applyAdds phfwdNew
        [("123".toList, "456".toList), ("1234".toList, "789".toList)])
        (some "12345".toList) = some ["7895".toList] := by
  decide

/-- C5: on a non-null handle, `phfwdAdd` returns `false` exactly when the origin
is not a number, the target is not a number, or the two are equal; and a call
that returns `false` leaves the whole structure, trie and inversion index,
as it was.  The strings are well-formed C strings or `NULL`. -/
theorem phfwdAdd_fails_iff (pf : PhoneForward) (num1 num2 : Option (List Char))
    (hpf : pf.isNull = false)
    (h1 : ∀ s, num1 = some s → IsCStr s) (h2 : ∀ s, num2 = some s → IsCStr s) :
    ((phfwdAdd pf num1 num2).1 = false ↔
      (numIsCorrect num1 = false ∨ numIsCorrect num2 = false ∨ num1 = num2)) ∧
    ((phfwdAdd pf num1 num2).1 = false → (phfwdAdd pf num1 num2).2 = pf) := by
  refine ⟨?_, phfwdAdd_rejected pf num1 num2⟩
  cases num1 with
  | none => simp [phfwdAdd, numIsCorrect]
  | some n1 =>
    cases num2 with
    | none => simp [phfwdAdd, numIsCorrect]
    | some n2 =>
      by_cases v1 : numIsCorrect (some n1) = true
      · by_cases v2 : numIsCorrect (some n2) = true
        · have hv1 : ValidNumber n1 := ⟨h1 n1 rfl, v1⟩
          have hv2 : ValidNumber n2 := ⟨h2 n2 rfl, v2⟩
          by_cases heq : n1 = n2
          · have h0 : numcmp n1 n2 = 0 :=
              (numcmp_eq_zero hv1.allDigits hv2.allDigits).mpr heq
            have hfl : (phfwdAdd pf (some n1) (some n2)).1 = false := by
              simp [phfwdAdd, h0]
            exact ⟨fun _ => Or.inr (Or.inr (by rw [heq])), fun _ => hfl⟩
          · have h0 := numcmp_ne_zero hv1 hv2 heq
            rw [phfwdAdd_ok hpf v1 v2 h0]
            simp [v1, v2, heq]
        · simp [phfwdAdd, v2]
      · simp [phfwdAdd, v1]

/-- Instance of C5: `phfwdAdd` of `12 -> 12` on an empty structure fails and
changes nothing. -/
theorem phfwdAdd_fails_iff_witness :
    (phfwdAdd phfwdNew (some "12".toList) (some "12".toList)).1 = false ∧
    (phfwdAdd phfwdNew (some "12".toList) (some "12".toList)).2 = phfwdNew :=
  have h := phfwdAdd_fails_iff phfwdNew (some "12".toList) (some "12".toList) rfl
    (by intro s hs; injection hs with hs; subst hs; decide)
    (by intro s hs; injection hs with hs; subst hs; decide)
  ⟨h.1.mpr (Or.inr (Or.inr rfl)), h.2 (h.1.mpr (Or.inr (Or.inr rfl)))⟩

/-- C6: for every run of insertions on an empty structure, every valid `p` and
every valid `q` that has `p` as a prefix, looking `q` up after the run and
`phfwdRemove` of `p` gives what looking `q` up gives after the same run with
every insertion whose origin has `p` as a prefix left out. -/
theorem phfwdRemove_as_never_inserted (adds : List (List Char × List Char))
    (p q : List Char) (hp : ValidNumber p) (hq : ValidNumber q) (_hpq : p <+: q) :
    phfwdGet (phfwdRemove (applyAdds phfwdNew adds) (some p)) (some q)
      = phfwdGet (applyAdds phfwdNew (adds.filter (fun a => decide (¬ p <+: a.1))))
          (some q) := by
  have r1 : Reachable (applyAdds phfwdNew adds) := reachable_new.applyAdds adds
  have r2 : Reachable (applyAdds phfwdNew (adds.filter (fun a => decide (¬ p <+: a.1)))) :=
    reachable_new.applyAdds _
  apply phfwdGet_congr (r1.remove _).wf r2.wf hq
  intro k _
  rw [redirAt_phfwdRemove r1.wf.nonnull hp.correct, numcpy_eq hp.allDigits]
  rw [redirAt_applyAdds_filter p hp.allDigits adds phfwdNew phfwdNew rfl rfl]
  intro o
  rw [redirAt_phfwdNew]
  simp

/-- Instance of C6, the scenario of the specification: `123 -> 456`,
`1234 -> 789`, removal of `123`, and `1234` is looked up unchanged. -/
theorem phfwdRemove_as_never_inserted_witness :
    phfwdGet (phfwdRemove (applyAdds phfwdNew
        [("123".toList, "456".toList), ("1234".toList, "789".toList)]) (some "123".toList))
        (some "1234".toList) = some ["1234".toList] :=
  (phfwdRemove_as_never_inserted
    [("123".toList, "456".toList), ("1234".toList, "789".toList)]
    "123".toList "1234".toList (by decide) (by decide) (by decide)).trans (by decide)

/-! ## Reverse queries: the claims -/

/-- C7: on a structure a caller can hold and a valid number `num`, `phfwdReverse`
returns a sequence that contains `num`, is strictly ascending in the number
order `0 < 1 < ... < 9 < * < #` (a proper prefix first), and therefore has no
two equal entries. -/
theorem phfwdReverse_contains_sorted_nodup (pf : PhoneForward) (num : List Char)
    (hpf : Reachable pf) (hnum : ValidNumber num) :
    ∃ res, phfwdReverse pf (some num) = some res ∧ num ∈ res ∧
      res.Pairwise NumLt ∧ res.Nodup := by
  obtain ⟨res, hres, hpw, hmem, hv⟩ := phfwdReverse_spec hpf.wf hnum
  exact ⟨res, hres, (hmem num).mpr (Or.inl rfl), pairwise_numLt hv hpw,
    nodup_of_pairwise_numcmp hpw⟩

/-- Instance of C7: the reverse query for `4564` after `123 -> 456` and
`1234 -> 789`. -/
theorem phfwdReverse_contains_sorted_nodup_witness :
    ∃ res, phfwdReverse (applyAdds phfwdNew
        [("123".toList, "456".toList), ("1234".toList, "789".toList)])
        (some "4564".toList) = some res ∧ "4564".toList ∈ res ∧
      res.Pairwise NumLt ∧ res.Nodup :=
  phfwdReverse_contains_sorted_nodup _ "4564".toList (reachable_new.applyAdds _) (by decide)

/-- C8: on a structure reached from an empty one by insertions and removals, for
valid `x` and `num`: if `phfwdGet` sends `x` to `num`, then `x` is an entry of
what `phfwdReverse` returns for `num`. -/
theorem phfwdReverse_complete (pf : PhoneForward) (x num : List Char)
    (hpf : Reachable pf) (hx : ValidNumber x) (hnum : ValidNumber num)
    (h : phfwdGet pf (some x) = some [num]) :
    ∃ res, phfwdReverse pf (some num) = some res ∧ x ∈ res := by
  obtain ⟨res, hres, _, hmem, _⟩ := phfwdReverse_spec hpf.wf hnum
  exact ⟨res, hres, (hmem x).mpr (mem_candidates_of_phfwdGet hpf.wf hx h)⟩

/-- Instance of C8: after `123 -> 456` and `1234 -> 789`, `1234` is sent to `789`
and is found by the reverse query for `789`. -/
theorem phfwdReverse_complete_witness :
    ∃ res, phfwdReverse (applyAdds phfwdNew
        [("123".toList, "456".toList), ("1234".toList, "789".toList)])
        (some "789".toList) = some res ∧ "1234".toList ∈ res :=
  phfwdReverse_complete _ "1234".toList "789".toList (reachable_new.applyAdds _)
    (by decide) (by decide) (by decide)

/-- C9: on a structure a caller can hold and a valid number `num`, every entry
`x` of what `phfwdGetReverse` returns is an entry of what `phfwdReverse`
returns for `num`, and `phfwdGet` sends `x` to exactly `num`. -/
theorem phfwdGetReverse_sound (pf : PhoneForward) (num : List Char)
    (hpf : Reachable pf) (hnum : ValidNumber num) :
    ∃ vr r, phfwdGetReverse pf (some num) = some vr ∧
      phfwdReverse pf (some num) = some r ∧
      ∀ x ∈ vr, x ∈ r ∧ phfwdGet pf (some x) = some [num] := by
  obtain ⟨res, hres, _, _, hv⟩ := phfwdReverse_spec hpf.wf hnum
  refine ⟨_, res, phfwdGetReverse_eq hpf.wf hnum hres hv, hres, ?_⟩
  intro x hx
  rw [List.mem_filter] at hx
  exact ⟨hx.1, of_decide_eq_true hx.2⟩

/-- Instance of C9: the verified reverse query for `4564` after `123 -> 456` and
`1234 -> 789`. -/
theorem phfwdGetReverse_sound_witness :
    ∃ vr r, phfwdGetReverse (applyAdds phfwdNew
        [("123".toList, "456".toList), ("1234".toList, "789".toList)])
        (some "4564".toList) = some vr ∧
      phfwdReverse (applyAdds phfwdNew
        [("123".toList, "456".toList), ("1234".toList, "789".toList)])
        (some "4564".toList) = some r ∧
      ∀ x ∈ vr, x ∈ r ∧ phfwdGet (applyAdds phfwdNew
        [("123".toList, "456".toList), ("1234".toList, "789".toList)])
        (some x) = some ["4564".toList] :=
  phfwdGetReverse_sound _ "4564".toList (reachable_new.applyAdds _) (by decide)

/-- C10: on a structure reached from an empty one by insertions and removals and
a valid number `num`, `phfwdGetReverse` returns the strictly ascending (hence
duplicate-free) list of all and only the valid numbers `x` that `phfwdGet`
sends to `num`. -/
theorem phfwdGetReverse_exact (pf : PhoneForward) (num : List Char)
    (hpf : Reachable pf) (hnum : ValidNumber num) :
    ∃ vr, phfwdGetReverse pf (some num) = some vr ∧
      vr.Pairwise NumLt ∧ vr.Nodup ∧ (∀ x ∈ vr, ValidNumber x) ∧
      ∀ x, ValidNumber x → (x ∈ vr ↔ phfwdGet pf (some x) = some [num]) := by
  obtain ⟨res, hres, hpw, hmem, hv⟩ := phfwdReverse_spec hpf.wf hnum
  have hsub : (res.filter (fun x => decide (phfwdGet pf (some x) = some [num]))).Sublist res :=
    List.filter_sublist _
  have hv1 : ∀ x ∈ res.filter (fun x => decide (phfwdGet pf (some x) = some [num])),
      ValidNumber x := fun x hx => hv x (hsub.subset hx)
  have hpw1 := hpw.sublist hsub
  refine ⟨_, phfwdGetReverse_eq hpf.wf hnum hres hv, pairwise_numLt hv1 hpw1,
    nodup_of_pairwise_numcmp hpw1, hv1, ?_⟩
  intro x hx
  rw [List.mem_filter]
  constructor
  · intro h; exact of_decide_eq_true h.2
  · intro h
    exact ⟨(hmem x).mpr (mem_candidates_of_phfwdGet hpf.wf hx h), decide_eq_true h⟩

/-- Instance of C10: the verified reverse query for `789` after `123 -> 456` and
`1234 -> 789`. -/
theorem phfwdGetReverse_exact_witness :
    ∃ vr, phfwdGetReverse (applyAdds phfwdNew
        [("123".toList, "456".toList), ("1234".toList, "789".toList)])
        (some "789".toList) = some vr ∧
      vr.Pairwise NumLt ∧ vr.Nodup ∧ (∀ x ∈ vr, ValidNumber x) ∧
      ∀ x, ValidNumber x → (x ∈ vr ↔ phfwdGet (applyAdds phfwdNew
        [("123".toList, "456".toList), ("1234".toList, "789".toList)])
        (some x) = some ["789".toList]) :=
  phfwdGetReverse_exact _ "789".toList (reachable_new.applyAdds _) (by decide)

/-! ## Invalid input, the validator and the comparison -/

theorem numDigitIsCorrect_iff_mem (c : Char) : numDigitIsCorrect c = true ↔ c ∈ alphabet := by
  constructor
  · intro h
    unfold numDigitIsCorrect at h
    simp only [Bool.or_eq_true, Bool.and_eq_true, decide_eq_true_eq, beq_iff_eq] at h
    have h0 : '0'.toNat = 48 := by decide
    have h9 : '9'.toNat = 57 := by decide
    rcases h with (⟨h1, h2⟩ | h) | h
    · rw [h0] at h1
      rw [h9] at h2
      have hc : c.toNat = 48 ∨ c.toNat = 49 ∨ c.toNat = 50 ∨ c.toNat = 51 ∨ c.toNat = 52 ∨
          c.toNat = 53 ∨ c.toNat = 54 ∨ c.toNat = 55 ∨ c.toNat = 56 ∨ c.toNat = 57 := by omega
      rcases hc with hc | hc | hc | hc | hc | hc | hc | hc | hc | hc
      · have e : c = '0' := char_eq_of_toNat_eq (by rw [hc]; rfl)
        rw [e]; decide
      · have e : c = '1' := char_eq_of_toNat_eq (by rw [hc]; rfl)
        rw [e]; decide
      · have e : c = '2' := char_eq_of_toNat_eq (by rw [hc]; rfl)
        rw [e]; decide
      · have e : c = '3' := char_eq_of_toNat_eq (by rw [hc]; rfl)
        rw [e]; decide
      · have e : c = '4' := char_eq_of_toNat_eq (by rw [hc]; rfl)
        rw [e]; decide
      · have e : c = '5' := char_eq_of_toNat_eq (by rw [hc]; rfl)
        rw [e]; decide
      · have e : c = '6' := char_eq_of_toNat_eq (by rw [hc]; rfl)
        rw [e]; decide
      · have e : c = '7' := char_eq_of_toNat_eq (by rw [hc]; rfl)
        rw [e]; decide
      · have e : c = '8' := char_eq_of_toNat_eq (by rw [hc]; rfl)
        rw [e]; decide
      · have e : c = '9' := char_eq_of_toNat_eq (by rw [hc]; rfl)
        rw [e]; decide
    · rw [h]; decide
    · rw [h]; decide
  · intro h
    have hall : ∀ d ∈ alphabet, numDigitIsCorrect d = true := by decide
    exact hall c h

theorem numIsCorrect_false_of_invalid {s : List Char} (hs : IsCStr s)
    (hinv : s = [] ∨ ∃ c ∈ s, c ∉ alphabet) : numIsCorrect (some s) = false := by
  rw [Bool.eq_false_iff]
  intro h
  have hv : ValidNumber s := ⟨hs, h⟩
  rcases hinv with rfl | ⟨c, hc, hn⟩
  · exact hv.ne_nil rfl
  · exact hn ((numDigitIsCorrect_iff_mem c).mp (hv.allDigits c hc))

/-- C11: on every non-null structure and every invalid input string (empty, or
holding a character outside `0-9`, `*`, `#`), `phfwdGet`, `phfwdReverse` and
`phfwdGetReverse` each return an empty sequence. -/
theorem queries_empty_on_invalid (pf : PhoneForward) (s : List Char)
    (hpf : pf.isNull = false) (hs : IsCStr s)
    (hinv : s = [] ∨ ∃ c ∈ s, c ∉ alphabet) :
    phfwdGet pf (some s) = some [] ∧ phfwdReverse pf (some s) = some [] ∧
    phfwdGetReverse pf (some s) = some [] := by
  have h := numIsCorrect_false_of_invalid hs hinv
  cases pf with
  | null => simp [isNull] at hpf
  | node next r invs => simp [phfwdGet, phfwdReverse, phfwdGetReverse, h]

/-- Instance of C11: the string `12a3` on the structure holding `123 -> 456`. -/
theorem queries_empty_on_invalid_witness :
    phfwdGet (applyAdds phfwdNew [("123".toList, "456".toList)]) (some "12a3".toList)
        = some [] ∧
    phfwdReverse (applyAdds phfwdNew [("123".toList, "456".toList)]) (some "12a3".toList)
        = some [] ∧
    phfwdGetReverse (applyAdds phfwdNew [("123".toList, "456".toList)]) (some "12a3".toList)
        = some [] :=
  queries_empty_on_invalid _ "12a3".toList (by decide) (by decide)
    (Or.inr ⟨'a', by decide, by decide⟩)

/-- C12, the code at the failing input: after `2 -> 9` and `1 -> 8` the index is
in insertion order, the binary search of `phfwdRemove` for `1` ends at index
`0`, whose origin `2` does not have the prefix `1`, and the record of origin
`1` stays in the index although the node of `1` is gone from the trie. -/
theorem phfwdRemove_misses_record :
    (applyAdds phfwdNew [("2".toList, "9".toList), ("1".toList, "8".toList)]).inversions
      = [⟨"9".toList, "2".toList⟩, ⟨"8".toList, "1".toList⟩] ∧
    lowerBound "1".toList
      [⟨"9".toList, "2".toList⟩, ⟨"8".toList, "1".toList⟩] 2 0 2 = 0 ∧
    (phfwdRemove (applyAdds phfwdNew [("2".toList, "9".toList), ("1".toList, "8".toList)])
        (some "1".toList)).inversions
      = [⟨"9".toList, "2".toList⟩, ⟨"8".toList, "1".toList⟩] ∧
    (nodeAt (phfwdRemove
        (applyAdds phfwdNew [("2".toList, "9".toList), ("1".toList, "8".toList)])
        (some "1".toList)) "1".toList).isNull = true := by
  decide

/-- C13, the code at the failing input: the `qsort` call of `phfwdAdd` is given
the array of the node of `num1`, which is empty, so the index of the handle
keeps the insertion order; after `2 -> 9` and `1 -> 8` it is not sorted by
origin. -/
theorem index_not_sorted :
    (applyAdds phfwdNew [("2".toList, "9".toList), ("1".toList, "8".toList)]).inversions
      = [⟨"9".toList, "2".toList⟩, ⟨"8".toList, "1".toList⟩] ∧
    ¬ SortedByOrigin
      (applyAdds phfwdNew [("2".toList, "9".toList), ("1".toList, "8".toList)]).inversions := by
  decide

/-- C14, the code at the failing input: after `1 -> 8`, `0 -> 9`, `00 -> 7` and
the removal of `0` (which misses the records of `0` and `00` in the unsorted
index), the trie has no node for `00`, yet `phfwdRemove` of `00` drops the
record of `00` from the index and changes what `phfwdReverse` returns for `7`. -/
theorem phfwdRemove_missing_node_changes_index :
    (nodeAt (applyOps phfwdNew
        [Op.add (some "1".toList) (some "8".toList), Op.add (some "0".toList) (some "9".toList),
         Op.add (some "00".toList) (some "7".toList), Op.remove (some "0".toList)])
        "00".toList).isNull = true ∧
    (applyOps phfwdNew
        [Op.add (some "1".toList) (some "8".toList), Op.add (some "0".toList) (some "9".toList),
         Op.add (some "00".toList) (some "7".toList), Op.remove (some "0".toList)]).inversions
      = [⟨"8".toList, "1".toList⟩, ⟨"9".toList, "0".toList⟩, ⟨"7".toList, "00".toList⟩] ∧
    (phfwdRemove (applyOps phfwdNew
        [Op.add (some "1".toList) (some "8".toList), Op.add (some "0".toList) (some "9".toList),
         Op.add (some "00".toList) (some "7".toList), Op.remove (some "0".toList)])
        (some "00".toList)).inversions
      = [⟨"8".toList, "1".toList⟩, ⟨"9".toList, "0".toList⟩] ∧
    phfwdReverse (applyOps phfwdNew
        [Op.add (some "1".toList) (some "8".toList), Op.add (some "0".toList) (some "9".toList),
         Op.add (some "00".toList) (some "7".toList), Op.remove (some "0".toList)])
        (some "7".toList) = some ["00".toList, "7".toList] ∧
    phfwdReverse (phfwdRemove (applyOps phfwdNew
        [Op.add (some "1".toList) (some "8".toList), Op.add (some "0".toList) (some "9".toList),
         Op.add (some "00".toList) (some "7".toList), Op.remove (some "0".toList)])
        (some "00".toList)) (some "7".toList) = some ["7".toList] := by
  decide

/-- C15: on a structure a caller can hold, for valid `origin ≠ target` and every
valid `q`, looking `q` up after inserting `origin -> target` twice in a row
gives what looking it up after inserting it once gives. -/
theorem phfwdAdd_twice_same_lookup (pf : PhoneForward) (origin target q : List Char)
    (hpf : Reachable pf) (ho : ValidNumber origin) (ht : ValidNumber target)
    (hne : origin ≠ target) (hq : ValidNumber q) :
    phfwdGet (phfwdAdd (phfwdAdd pf (some origin) (some target)).2
        (some origin) (some target)).2 (some q)
      = phfwdGet (phfwdAdd pf (some origin) (some target)).2 (some q) := by
  have r1 := hpf.add (some origin) (some target)
  have r2 := r1.add (some origin) (some target)
  have hc := numcmp_ne_zero ho ht hne
  apply phfwdGet_congr r2.wf r1.wf hq
  intro k _
  rw [redirAt_phfwdAdd_ok r1.wf.nonnull ho.correct ht.correct hc,
    redirAt_phfwdAdd_ok hpf.wf.nonnull ho.correct ht.correct hc]
  split_ifs <;> rfl

/-- Instance of C15: `12 -> 7` inserted twice on an empty structure, `123` looked up. -/
theorem phfwdAdd_twice_same_lookup_witness :
    phfwdGet (phfwdAdd (phfwdAdd phfwdNew (some "12".toList) (some "7".toList)).2
        (some "12".toList) (some "7".toList)).2 (some "123".toList)
      = phfwdGet (phfwdAdd phfwdNew (some "12".toList) (some "7".toList)).2
          (some "123".toList) :=
  phfwdAdd_twice_same_lookup phfwdNew "12".toList "7".toList "123".toList reachable_new
    (by decide) (by decide) (by decide) (by decide)

/-- C16: redirection is not transitive: for valid `a`, `b`, `c` with `a ≠ b` and
`b ≠ c`, after `a -> b` and `b -> c` on an empty structure, looking `a` up
yields `b`, a single rewrite, and not `c`. -/
theorem redirection_not_transitive (a b c : List Char)
    (ha : ValidNumber a) (hb : ValidNumber b) (hc : ValidNumber c)
    (hab : a ≠ b) (hbc : b ≠ c) :
    phfwdGet (phfwdAdd (phfwdAdd phfwdNew (some a) (some b)).2 (some b) (some c)).2 (some a)
        = some [b] ∧
    phfwdGet (phfwdAdd (phfwdAdd phfwdNew (some a) (some b)).2 (some b) (some c)).2 (some a)
        ≠ some [c] := by
  have r1 := reachable_new.add (some a) (some b)
  have r2 := r1.add (some b) (some c)
  have hat : redirAt (phfwdAdd (phfwdAdd phfwdNew (some a) (some b)).2 (some b) (some c)).2
      (a.take a.length) = some b := by
    rw [List.take_length,
      redirAt_phfwdAdd_ok r1.wf.nonnull hb.correct hc.correct (numcmp_ne_zero hb hc hbc),
      numcpy_eq hb.allDigits, if_neg hab,
      redirAt_phfwdAdd_ok wf_phfwdNew.nonnull ha.correct hb.correct (numcmp_ne_zero ha hb hab),
      numcpy_eq ha.allDigits, if_pos rfl, numcpy_eq hb.allDigits]
  have hget := phfwdGet_of_deepest r2.wf ha (le_refl _) hat (by intro i h1 h2; omega)
  rw [List.drop_length, List.append_nil] at hget
  refine ⟨hget, ?_⟩
  rw [hget]
  intro h
  injection h with h
  injection h with h
  exact hbc h

/-- Instance of C16: `1 -> 2` and `2 -> 3`; `1` is sent to `2`. -/
theorem redirection_not_transitive_witness :
    phfwdGet (phfwdAdd (phfwdAdd phfwdNew (some "1".toList) (some "2".toList)).2
        (some "2".toList) (some "3".toList)).2 (some "1".toList) = some ["2".toList] ∧
    phfwdGet (phfwdAdd (phfwdAdd phfwdNew (some "1".toList) (some "2".toList)).2
        (some "2".toList) (some "3".toList)).2 (some "1".toList) ≠ some ["3".toList] :=
  redirection_not_transitive "1".toList "2".toList "3".toList
    (by decide) (by decide) (by decide) (by decide) (by decide)

/-- C17: on a well-formed C string `s`, the validator `numIsCorrect` returns
`true` exactly when `s` is non-empty and every character of `s` is one of the
twelve symbols `0 .. 9`, `*`, `#`; the null pointer is rejected. -/
theorem numIsCorrect_iff_symbols (s : List Char) (hs : IsCStr s) :
    (numIsCorrect (some s) = true ↔ s ≠ [] ∧ ∀ c ∈ s, c ∈ alphabet) ∧
    numIsCorrect none = false := by
  refine ⟨?_, rfl⟩
  constructor
  · intro h
    have hv : ValidNumber s := ⟨hs, h⟩
    exact ⟨hv.ne_nil, fun c hc => (numDigitIsCorrect_iff_mem c).mp (hv.allDigits c hc)⟩
  · rintro ⟨hne, hall⟩
    exact (validNumber_iff.mpr
      ⟨hne, fun c hc => (numDigitIsCorrect_iff_mem c).mpr (hall c hc)⟩).correct

/-- Instance of C17: the string `12*#`. -/
theorem numIsCorrect_iff_symbols_witness :
    (numIsCorrect (some "12*#".toList) = true ↔
      "12*#".toList ≠ [] ∧ ∀ c ∈ "12*#".toList, c ∈ alphabet) ∧
    numIsCorrect none = false :=
  numIsCorrect_iff_symbols "12*#".toList (by decide)

theorem numDigitToIndex_eq_symbolRank {c : Char} (h : numDigitIsCorrect c = true) :
    numDigitToIndex c = (symbolRank c : Int) := by
  have hall : ∀ d ∈ alphabet, numDigitToIndex d = (symbolRank d : Int) := by decide
  exact hall c ((numDigitIsCorrect_iff_mem c).mp h)

theorem lexCmp_range (u v : List Int) : lexCmp u v = -1 ∨ lexCmp u v = 0 ∨ lexCmp u v = 1 := by
  induction u generalizing v with
  | nil => cases v <;> simp [lexCmp]
  | cons x xs ih =>
    cases v with
    | nil => simp [lexCmp]
    | cons y ys =>
      simp only [lexCmp]
      split_ifs
      · right; right; rfl
      · left; rfl
      · exact ih ys

theorem lexCmp_natCast_lt_iff (u v : List Nat) :
    lexCmp (u.map Int.ofNat) (v.map Int.ofNat) < 0
      ↔ List.Lex (fun x y : Nat => x < y) u v := by
  induction u generalizing v with
  | nil =>
    cases v with
    | nil => simp [lexCmp, List.Lex.not_nil_right]
    | cons y ys => simp [lexCmp, List.Lex.nil]
  | cons x xs ih =>
    cases v with
    | nil => simp [lexCmp, List.Lex.not_nil_right]
    | cons y ys =>
      simp only [List.map_cons, lexCmp, Int.ofNat_eq_coe]
      split_ifs with h1 h2
      · constructor
        · intro h; omega
        · intro h
          cases h with
          | cons h => omega
          | rel h => omega
      · constructor
        · intro _; exact List.Lex.rel (by omega)
        · intro _; omega
      · have hxy : x = y := by omega
        subst hxy
        have hih := ih ys
        simp only [Int.ofNat_eq_coe] at hih
        rw [hih]
        exact List.Lex.cons_iff.symm

theorem map_numDigitToIndex {a : List Char} (ha : AllDigits a) :
    a.map numDigitToIndex = (a.map symbolRank).map Int.ofNat := by
  rw [List.map_map]
  apply List.map_congr_left
  intro c hc
  exact numDigitToIndex_eq_symbolRank (ha c hc)

theorem lexCmp_lt_iff_specLt {a b : List Char} (ha : AllDigits a) (hb : AllDigits b) :
    lexCmp (a.map numDigitToIndex) (b.map numDigitToIndex) < 0 ↔ SpecLt a b := by
  rw [map_numDigitToIndex ha, map_numDigitToIndex hb]
  exact lexCmp_natCast_lt_iff _ _

theorem numcmp_lt_iff_specLt {a b : List Char} (ha : AllDigits a) (hb : AllDigits b) :
    numcmp a b < 0 ↔ SpecLt a b := by
  rw [numcmp_eq_lexCmp]
  unfold ranks
  rw [numcpy_eq ha, numcpy_eq hb]
  exact lexCmp_lt_iff_specLt ha hb

theorem numcmp_range (a b : List Char) : numcmp a b = -1 ∨ numcmp a b = 0 ∨ numcmp a b = 1 := by
  rw [numcmp_eq_lexCmp]; exact lexCmp_range _ _

theorem specLt_of_proper_initial {a b : List Char} (h : a <+: b) (hne : a ≠ b) : SpecLt a b := by
  obtain ⟨t, rfl⟩ := h
  cases t with
  | nil => simp at hne
  | cons c cs =>
    unfold SpecLt
    rw [List.map_append]
    have := List.Lex.append_left (fun x y : Nat => x < y)
      (List.Lex.nil : List.Lex (fun x y : Nat => x < y) [] ((c :: cs).map symbolRank))
      (a.map symbolRank)
    simpa using this

/-- C18: for valid numbers `a` and `b`, `numcmp` returns `-1`, `0` or `1`, and
the value is the lexicographic comparison of `a` and `b` over the alphabet
order `0 < 1 < ... < 9 < * < #`: `-1` exactly when `a` is before `b`, `0`
exactly when they are equal, `1` exactly when `b` is before `a`.  A proper
prefix is before its extensions, and `*` is after `9` and before `#`. -/
theorem numcmp_lexicographic (a b : List Char) (ha : ValidNumber a) (hb : ValidNumber b) :
    (numcmp a b = -1 ∨ numcmp a b = 0 ∨ numcmp a b = 1) ∧
    (numcmp a b = -1 ↔ SpecLt a b) ∧
    (numcmp a b = 0 ↔ a = b) ∧
    (numcmp a b = 1 ↔ SpecLt b a) ∧
    (a <+: b → a ≠ b → numcmp a b = -1) ∧
    numcmp "9".toList "*".toList = -1 ∧ numcmp "*".toList "#".toList = -1 := by
  have hr := numcmp_range a b
  have hlt := numcmp_lt_iff_specLt ha.allDigits hb.allDigits
  have hgt := numcmp_lt_iff_specLt hb.allDigits ha.allDigits
  have hanti := numcmp_antisymm a b
  have h1 : numcmp a b = -1 ↔ SpecLt a b := by
    rw [← hlt]; constructor <;> intro h <;> omega
  refine ⟨hr, h1, numcmp_eq_zero ha.allDigits hb.allDigits, ?_, ?_, by decide, by decide⟩
  · rw [← hgt]; constructor <;> intro h <;> omega
  · intro hp hne
    exact h1.mpr (specLt_of_proper_initial hp hne)

/-- Instance of C18: `12` against its extension `12*`. -/
theorem numcmp_lexicographic_witness : numcmp "12".toList "12*".toList = -1 :=
  (numcmp_lexicographic "12".toList "12*".toList (by decide) (by decide)).2.2.2.2.1
    (by decide) (by decide)

/-- C19: `phnumGet` returns the `idx`-th stored number, counted from zero in
stored order, when `idx` is less than the length of the sequence, and the
not-found signal when `idx` is at least the length or the sequence is null. -/
theorem phnumGet_spec (l : PhoneNumbers) (idx : Nat) :
    (∀ h : idx < l.length, phnumGet (some l) idx = some (l.get ⟨idx, h⟩)) ∧
    (l.length ≤ idx → phnumGet (some l) idx = none) ∧
    phnumGet none idx = none := by
  refine ⟨?_, ?_, rfl⟩
  · intro h
    simp only [phnumGet]
    rw [if_neg (by omega), List.get?_eq_get h]
  · intro h
    simp only [phnumGet]
    rw [if_pos h]

/-- Instance of C19: index `1` of the sequence `1`, `22`. -/
theorem phnumGet_spec_witness :
    phnumGet (some ["1".toList, "22".toList]) 1 = some "22".toList :=
  (phnumGet_spec ["1".toList, "22".toList] 1).1 (by decide)

/-- C20: on a structure a caller can hold and a valid number `num`, the entries
of what `phfwdReverse` returns are `num` and, for every record `r` of the
handle's index whose `forward` is a prefix of `num`, the origin of `r`
followed by `num` without its first `|r.forward|` symbols; and the sequence
lists them in ascending order of the alphabet order. -/
theorem phfwdReverse_elements (pf : PhoneForward) (num : List Char)
    (hpf : Reachable pf) (hnum : ValidNumber num) :
    ∃ res, phfwdReverse pf (some num) = some res ∧
      (∀ x, x ∈ res ↔ x = num ∨ ∃ r ∈ pf.inversions, r.forward <+: num ∧
          x = r.origin ++ num.drop r.forward.length) ∧
      res.Pairwise SpecLt := by
  obtain ⟨res, hres, hpw, hmem, hv⟩ := phfwdReverse_spec hpf.wf hnum
  refine ⟨res, hres, ?_, ?_⟩
  · intro x
    rw [hmem x, mem_candidates]
    constructor
    · rintro (h | ⟨r, hr, hp, hx⟩)
      · exact Or.inl h
      · exact Or.inr ⟨r, hr, (numIsPrefix_iff_of_digits
          (hpf.wf.inv_valid r hr).1.allDigits hnum.allDigits).mp hp, hx⟩
    · rintro (h | ⟨r, hr, hp, hx⟩)
      · exact Or.inl h
      · exact Or.inr ⟨r, hr, (numIsPrefix_iff_of_digits
          (hpf.wf.inv_valid r hr).1.allDigits hnum.allDigits).mpr hp, hx⟩
  · exact hpw.imp_of_mem (fun ha hb hab =>
      (numcmp_lt_iff_specLt (hv _ ha).allDigits (hv _ hb).allDigits).mp hab)

/-- Instance of C20: the reverse query for `4564` after `123 -> 456` and
`1234 -> 789`. -/
theorem phfwdReverse_elements_witness :
    ∃ res, phfwdReverse (applyAdds phfwdNew
        [("123".toList, "456".toList), ("1234".toList, "789".toList)])
        (some "4564".toList) = some res ∧
      (∀ x, x ∈ res ↔ x = "4564".toList ∨
        ∃ r ∈ (applyAdds phfwdNew
          [("123".toList, "456".toList), ("1234".toList, "789".toList)]).inversions,
          r.forward <+: "4564".toList ∧
          x = r.origin ++ "4564".toList.drop r.forward.length) ∧
      res.Pairwise SpecLt :=
  phfwdReverse_elements _ "4564".toList (reachable_new.applyAdds _) (by decide)

/-! ## The index on insertion, frame properties, and the order laws -/

/-- C21, the claim as stated fails in its last clause: on the structure holding
`11 -> 5`, after `1 -> 2` and then `1 -> 3`, looking `11` up follows the longer
rule and yields `5`, not `31`. -/
theorem reinsert_lookup_counterexample :
    ValidNumber "1".toList ∧ ValidNumber "2".toList ∧ ValidNumber "3".toList ∧
    "2".toList ≠ "3".toList ∧
    Reachable (phfwdAdd phfwdNew (some "11".toList) (some "5".toList)).2 ∧
    (phfwdAdd (phfwdAdd (phfwdAdd phfwdNew (some "11".toList) (some "5".toList)).2
        (some "1".toList) (some "2".toList)).2 (some "1".toList) (some "3".toList)).1 = true ∧
    phfwdGet
      (phfwdAdd (phfwdAdd (phfwdAdd phfwdNew (some "11".toList) (some "5".toList)).2
        (some "1".toList) (some "2".toList)).2 (some "1".toList) (some "3".toList)).2
      (some ("1".toList ++ "1".toList)) ≠ some ["3".toList ++ "1".toList] :=
  ⟨by decide, by decide, by decide, by decide, reachable_new.add _ _, by decide, by decide⟩

/-- C21, amended: on a structure a caller can hold, a successful `phfwdAdd` of
`x -> y` appends exactly the record (forward `y`, origin `x`) to the handle's
index, and so does a following `phfwdAdd` of `x -> z` although `x` already
carries a redirection; afterwards, for every run `s` of symbols, what
`phfwdReverse` returns for `y ++ s` still contains `x ++ s`, and looking
`x ++ s` up yields `z ++ s` whenever no prefix of `x ++ s` strictly longer than
`x` carries a redirection. -/
theorem phfwdAdd_appends_record (pf : PhoneForward) (x y z s : List Char)
    (hpf : Reachable pf) (hx : ValidNumber x) (hy : ValidNumber y) (hz : ValidNumber z)
    (hxy : x ≠ y) (hxz : x ≠ z) (_hyz : y ≠ z) (hs : AllDigits s) :
    (phfwdAdd pf (some x) (some y)).1 = true ∧
    (phfwdAdd pf (some x) (some y)).2.inversions = pf.inversions ++ [⟨y, x⟩] ∧
    (phfwdAdd (phfwdAdd pf (some x) (some y)).2 (some x) (some z)).1 = true ∧
    (phfwdAdd (phfwdAdd pf (some x) (some y)).2 (some x) (some z)).2.inversions
      = (phfwdAdd pf (some x) (some y)).2.inversions ++ [⟨z, x⟩] ∧
    (∃ res, phfwdReverse (phfwdAdd (phfwdAdd pf (some x) (some y)).2 (some x) (some z)).2
        (some (y ++ s)) = some res ∧ x ++ s ∈ res) ∧
    ((∀ k, x.length < k → k ≤ (x ++ s).length → redirAt pf ((x ++ s).take k) = none) →
      phfwdGet (phfwdAdd (phfwdAdd pf (some x) (some y)).2 (some x) (some z)).2
        (some (x ++ s)) = some [z ++ s]) := by
  have cxy := numcmp_ne_zero hx hy hxy
  have cxz := numcmp_ne_zero hx hz hxz
  have r1 := hpf.add (some x) (some y)
  have r2 := r1.add (some x) (some z)
  have n0 := hpf.wf.nonnull
  have n1 := r1.wf.nonnull
  have ex := numcpy_eq hx.allDigits
  have ey := numcpy_eq hy.allDigits
  have ez := numcpy_eq hz.allDigits
  have i1 := inversions_phfwdAdd_ok n0 hx.correct hy.correct cxy
  have i2 := inversions_phfwdAdd_ok n1 hx.correct hz.correct cxz
  rw [ex, ey] at i1
  rw [ex, ez] at i2
  have d1 := redirAt_phfwdAdd_ok n0 hx.correct hy.correct cxy
  have d2 := redirAt_phfwdAdd_ok n1 hx.correct hz.correct cxz
  rw [ex, ey] at d1
  rw [ex, ez] at d2
  refine ⟨by rw [phfwdAdd_ok n0 hx.correct hy.correct cxy],
    i1, by rw [phfwdAdd_ok n1 hx.correct hz.correct cxz], i2, ?_, ?_⟩
  · have hys : ValidNumber (y ++ s) := validNumber_append hy hs
    obtain ⟨res, hres, _, hmem, _⟩ := phfwdReverse_spec r2.wf hys
    refine ⟨res, hres, (hmem _).mpr (Or.inr ?_)⟩
    rw [mem_candidates]
    refine ⟨⟨y, x⟩, ?_, ?_, ?_⟩
    · rw [i2, i1]
      simp
    · exact (numIsPrefix_iff_of_digits hy.allDigits hys.allDigits).mpr (List.prefix_append _ _)
    · simp only
      rw [List.drop_left' rfl]
  · intro hfree
    have hxs : ValidNumber (x ++ s) := validNumber_append hx hs
    have hat : redirAt (phfwdAdd (phfwdAdd pf (some x) (some y)).2 (some x) (some z)).2
        ((x ++ s).take x.length) = some z := by
      rw [d2, List.take_left' rfl, if_pos rfl]
    have := phfwdGet_of_deepest r2.wf hxs (by simp) hat (by
      intro i h1 h2
      have hnx : (x ++ s).take i ≠ x := by
        intro h
        have := congrArg List.length h
        rw [List.length_take] at this
        omega
      rw [d2, if_neg hnx, d1, if_neg hnx]
      exact hfree i h1 h2)
    rw [this, List.drop_left' rfl]

/-- Instance of amended C21 on an empty structure: `1 -> 2`, then `1 -> 3`, and
the suffix `4`. -/
theorem phfwdAdd_appends_record_witness :
    (∃ res, phfwdReverse (phfwdAdd (phfwdAdd phfwdNew (some "1".toList) (some "2".toList)).2
        (some "1".toList) (some "3".toList)).2
        (some ("2".toList ++ "4".toList)) = some res ∧ "1".toList ++ "4".toList ∈ res) ∧
    phfwdGet (phfwdAdd (phfwdAdd phfwdNew (some "1".toList) (some "2".toList)).2
        (some "1".toList) (some "3".toList)).2
        (some ("1".toList ++ "4".toList)) = some ["3".toList ++ "4".toList] :=
  have h := phfwdAdd_appends_record phfwdNew "1".toList "2".toList "3".toList "4".toList
    reachable_new (by decide) (by decide) (by decide) (by decide) (by decide) (by decide)
    (by decide)
  ⟨h.2.2.2.2.1, h.2.2.2.2.2 (by intro k _ _; exact redirAt_phfwdNew _)⟩

/-- C22: on a structure a caller can hold, for valid `p` and every valid `q`
that does not have `p` as a prefix (a proper prefix of `p` included), looking
`q` up after `phfwdRemove` of `p` gives what it gave before. -/
theorem phfwdRemove_unrelated_lookup (pf : PhoneForward) (p q : List Char)
    (hpf : Reachable pf) (hp : ValidNumber p) (hq : ValidNumber q) (hnp : ¬ p <+: q) :
    phfwdGet (phfwdRemove pf (some p)) (some q) = phfwdGet pf (some q) := by
  apply phfwdGet_congr (hpf.remove _).wf hpf.wf hq
  intro k _
  rw [redirAt_phfwdRemove hpf.wf.nonnull hp.correct, numcpy_eq hp.allDigits]
  rw [if_neg (fun h => hnp (h.trans (List.take_prefix _ _)))]

/-- Instance of C22: with `123 -> 456` and `12 -> 7`, removing `123` leaves the
lookup of `12`, a proper prefix of `123`, as it was. -/
theorem phfwdRemove_unrelated_lookup_witness :
    phfwdGet (phfwdRemove (applyAdds phfwdNew
        [("123".toList, "456".toList), ("12".toList, "7".toList)]) (some "123".toList))
        (some "12".toList)
      = phfwdGet (applyAdds phfwdNew
        [("123".toList, "456".toList), ("12".toList, "7".toList)]) (some "12".toList) :=
  phfwdRemove_unrelated_lookup _ "123".toList "12".toList (reachable_new.applyAdds _)
    (by decide) (by decide) (by decide)

/-- C23: on a structure a caller can hold, for valid `x ≠ y` and every valid `q`
that does not have `x` as a prefix, `phfwdAdd` of `x -> y` succeeds and looking
`q` up afterwards gives what it gave before. -/
theorem phfwdAdd_unrelated_lookup (pf : PhoneForward) (x y q : List Char)
    (hpf : Reachable pf) (hx : ValidNumber x) (hy : ValidNumber y) (hxy : x ≠ y)
    (hq : ValidNumber q) (hnp : ¬ x <+: q) :
    (phfwdAdd pf (some x) (some y)).1 = true ∧
    phfwdGet (phfwdAdd pf (some x) (some y)).2 (some q) = phfwdGet pf (some q) := by
  have cxy := numcmp_ne_zero hx hy hxy
  refine ⟨by rw [phfwdAdd_ok hpf.wf.nonnull hx.correct hy.correct cxy], ?_⟩
  apply phfwdGet_congr (hpf.add _ _).wf hpf.wf hq
  intro k _
  rw [redirAt_phfwdAdd_ok hpf.wf.nonnull hx.correct hy.correct cxy, numcpy_eq hx.allDigits]
  rw [if_neg]
  intro h
  apply hnp
  rw [← h]
  exact List.take_prefix _ _

/-- Instance of C23: with `12 -> 7`, inserting `123 -> 456` leaves the lookup of
`124` as it was. -/
theorem phfwdAdd_unrelated_lookup_witness :
    (phfwdAdd (applyAdds phfwdNew [("12".toList, "7".toList)])
        (some "123".toList) (some "456".toList)).1 = true ∧
    phfwdGet (phfwdAdd (applyAdds phfwdNew [("12".toList, "7".toList)])
        (some "123".toList) (some "456".toList)).2 (some "124".toList)
      = phfwdGet (applyAdds phfwdNew [("12".toList, "7".toList)]) (some "124".toList) :=
  phfwdAdd_unrelated_lookup _ "123".toList "456".toList "124".toList
    (reachable_new.applyAdds _) (by decide) (by decide) (by decide) (by decide) (by decide)

/-- C24: on valid numbers `numcmp` is a total order consistent with equality:
`numcmp a b = 0` exactly when `a` and `b` are the same symbol sequence,
`numcmp a b = -numcmp b a`, any two numbers are comparable, and `numcmp a b ≤ 0`
with `numcmp b c ≤ 0` gives `numcmp a c ≤ 0`. -/
theorem numcmp_total_order (a b c : List Char)
    (ha : ValidNumber a) (hb : ValidNumber b) (_hc : ValidNumber c) :
    (numcmp a b = 0 ↔ a = b) ∧
    numcmp a b = -numcmp b a ∧
    (numcmp a b ≤ 0 ∨ numcmp b a ≤ 0) ∧
    (numcmp a b ≤ 0 → numcmp b c ≤ 0 → numcmp a c ≤ 0) := by
  have hanti := numcmp_antisymm b a
  refine ⟨numcmp_eq_zero ha.allDigits hb.allDigits, hanti, ?_, numcmp_trans⟩
  omega

/-- Instance of C24: the numbers `12`, `12*` and `13`. -/
theorem numcmp_total_order_witness :
    (numcmp "12".toList "12*".toList = 0 ↔ "12".toList = "12*".toList) ∧
    numcmp "12".toList "12*".toList = -numcmp "12*".toList "12".toList ∧
    (numcmp "12".toList "12*".toList ≤ 0 ∨ numcmp "12*".toList "12".toList ≤ 0) ∧
    (numcmp "12".toList "12*".toList ≤ 0 → numcmp "12*".toList "13".toList ≤ 0 →
      numcmp "12".toList "13".toList ≤ 0) :=
  numcmp_total_order "12".toList "12*".toList "13".toList (by decide) (by decide) (by decide)

end PhoneFwd

